import Mathlib

/-!  Verification of the rippledoc expression engine.

A shallow embedding of the expression core: the lexer
(`packages/expressions/src/lexer/Lexer.ts`), the recursive-descent parser
(`packages/expressions/src/parser/Parser.ts`), the AST phase machinery
(`parser/AST.ts`), the lifecycle wrappers (`UnboundExpression`,
`DependentExpression`, `Expression`), the batch resolver (`Resolver.ts`),
the binding context (`DefaultBindingContext`) and the module facade
(`modules/Module.ts`).

Modelling conventions:
  * JavaScript numbers are modelled as rationals (`ℚ`); the claims under
    test concern parsing structure, precedence, dependency ordering and
    phase transitions, none of which depend on floating-point rounding.
    `x / 0` and `x % 0` (JS `Infinity` / `NaN`) are outside every claim.
  * Exceptions are modelled with `Except String`; a thrown error carries
    the message of the source `Error`.
  * Mutable object graphs are modelled as arenas (lists indexed by `Nat`)
    threaded through each operation; a TS method that mutates and may
    throw becomes a function returning the updated arena together with an
    `Except` outcome, so partially-applied mutations survive an error
    exactly as they do on the JS heap.
  * Lazy memoisation caches (the dependency cache of
    `DependentExpression`, the link cache of `LinkedNameExpression`) are
    pure: recomputation is observationally identical in every reachable
    state, so the model recomputes.
-/

namespace Rippledoc

/-- Token kinds produced by the lexer (`lexer/Token.ts`). -/
inductive TokenType where
  | NUMBER | IDENTIFIER | PLUS | MINUS | STAR | SLASH | PERCENT
  | DOT | LPAREN | RPAREN | EOF | UNKNOWN
  deriving DecidableEq, Repr

/-- A lexical token (`lexer/Token.ts`): kind, raw text, 0-based start
offset, and numeric value (parsed value for NUMBER tokens, 0 otherwise). -/
structure Token where
  type : TokenType
  lexeme : List Char
  position : Nat
  value : ℚ
  deriving DecidableEq, Repr

/-- Kinds of named entities (`parser/NameType.ts`). -/
inductive NameType where
  | VALUE | ARRAY | FUNCTION | OBJECT
  deriving DecidableEq, Repr

/-- Lexer cursor state: the not-yet-consumed suffix of the source plus the
0-based index of its first character in the original source.  This is the
`(source, pos)` pair of `Lexer.ts` with the consumed prefix dropped. -/
structure LexState where
  rest : List Char
  pos : Nat
  deriving DecidableEq, Repr

/-- `Lexer.isDigit`: `c >= '0' && c <= '9'`. -/
def isDigitC (c : Char) : Bool := '0' ≤ c && c ≤ '9'

/-- `Lexer.isAlpha`: `(c >= 'a' && c <= 'z') || (c >= 'A' && c <= 'Z')`. -/
def isAlphaC (c : Char) : Bool :=
  ('a' ≤ c && c ≤ 'z') || ('A' ≤ c && c ≤ 'Z')

/-- `Lexer.isAlphaNumeric`: alpha, digit, or underscore. -/
def isAlphaNumC (c : Char) : Bool := isAlphaC c || isDigitC c || c = '_'

/-- `Lexer.skipWhitespace`: advance over space, tab, newline, carriage
return. -/
def skipWs : List Char → Nat → LexState
  | [], p => ⟨[], p⟩
  | c :: cs, p =>
    if c = ' ' || c = '\t' || c = '\n' || c = '\r' then skipWs cs (p + 1)
    else ⟨c :: cs, p⟩

/-- Value of a digit string, as computed by JS `Number` on the integer
part: fold of `10 * acc + digit`. -/
def digitsVal (ds : List Char) : Nat :=
  ds.foldl (fun a c => 10 * a + (c.toNat - 48)) 0

/-- JS `Number(lexeme)` for a lexeme of shape `intPart` or
`intPart ++ "." ++ fracPart`. -/
def decValue (ip fp : List Char) : ℚ :=
  (digitsVal ip : ℚ) +
    (if fp.isEmpty then 0 else (digitsVal fp : ℚ) / (10 : ℚ) ^ fp.length)

/-- `Lexer.number`: scan `[0-9]+(\.[0-9]+)?`, producing a NUMBER token
whose value is `Number(lexeme)`.  The fractional part is taken only when a
dot is immediately followed by a digit. -/
def scanNumber (st : LexState) : Token × LexState :=
  let ip := st.rest.takeWhile isDigitC
  let r1 := st.rest.dropWhile isDigitC
  match r1 with
  | '.' :: r2 =>
    match r2.head? with
    | some d =>
      if isDigitC d then
        let fp := r2.takeWhile isDigitC
        let r3 := r2.dropWhile isDigitC
        (⟨.NUMBER, ip ++ '.' :: fp, st.pos, decValue ip fp⟩,
         ⟨r3, st.pos + ip.length + 1 + fp.length⟩)
      else
        (⟨.NUMBER, ip, st.pos, decValue ip []⟩, ⟨r1, st.pos + ip.length⟩)
    | none =>
      (⟨.NUMBER, ip, st.pos, decValue ip []⟩, ⟨r1, st.pos + ip.length⟩)
  | _ =>
    (⟨.NUMBER, ip, st.pos, decValue ip []⟩, ⟨r1, st.pos + ip.length⟩)

/-- `Lexer.identifier`: scan `[A-Za-z][A-Za-z0-9_]*` (the first character
was already checked by the caller). -/
def scanIdent (st : LexState) : Token × LexState :=
  let lx := st.rest.takeWhile isAlphaNumC
  (⟨.IDENTIFIER, lx, st.pos, 0⟩,
   ⟨st.rest.dropWhile isAlphaNumC, st.pos + lx.length⟩)

/-- Single-character token (`Lexer.single`). -/
def singleTok (ty : TokenType) (c : Char) (cs : List Char) (p : Nat) :
    Token × LexState :=
  (⟨ty, [c], p, 0⟩, ⟨cs, p + 1⟩)

/-- `Lexer.nextToken`: total — always returns a token.  Past the end of
the source it returns EOF; an unrecognized character becomes an UNKNOWN
token carrying that character and its position. -/
def nextToken (st0 : LexState) : Token × LexState :=
  let st := skipWs st0.rest st0.pos
  match st.rest with
  | [] => (⟨.EOF, [], st.pos, 0⟩, st)
  | c :: cs =>
    if isDigitC c then scanNumber st
    else if isAlphaC c then scanIdent st
    else if c = '+' then singleTok .PLUS c cs st.pos
    else if c = '-' then singleTok .MINUS c cs st.pos
    else if c = '*' then singleTok .STAR c cs st.pos
    else if c = '/' then singleTok .SLASH c cs st.pos
    else if c = '%' then singleTok .PERCENT c cs st.pos
    else if c = '.' then singleTok .DOT c cs st.pos
    else if c = '(' then singleTok .LPAREN c cs st.pos
    else if c = ')' then singleTok .RPAREN c cs st.pos
    else (⟨.UNKNOWN, [c], st.pos, 0⟩, ⟨cs, st.pos + 1⟩)

/-- Repeated `nextToken` calls collected into a list ending with the EOF
token.  The fuel only guards Lean's termination checker; every non-EOF
token consumes at least one character, so `length + 1` suffices. -/
def tokenizeFrom : Nat → LexState → List Token
  | 0, _ => []
  | fuel + 1, st =>
    let (t, st') := nextToken st
    if t.type = .EOF then [t] else t :: tokenizeFrom fuel st'

/-- Tokenize a whole source text. -/
def tokenize (s : List Char) : List Token :=
  tokenizeFrom (s.length + 1) ⟨s, 0⟩

/-! ### AST (`parser/AST.ts`, `parser/AST.NameExpression.ts`)

The TS code reuses one node hierarchy across the three lifecycle phases
and swaps node identity at each transition; the model uses one inductive
with a constructor per live variant.  `linked` and `resolvedRef` carry the
index of the referenced expression in the expression arena: the deferred
accessor returned by a binding context captures exactly one
`UnboundExpression`, so its identity is fixed at bind time and only the
dereference of `.dependentExpression` / `.expression` is deferred. -/

inductive Ast where
  /-- `NumberLiteral` -/
  | num (value : ℚ)
  /-- `UnaryExpression` -/
  | unary (op : TokenType) (operand : Ast)
  /-- `BinaryExpression` -/
  | binary (left : Ast) (op : TokenType) (right : Ast)
  /-- `NameExpression` (unbound phase) -/
  | name (parts : List String)
  /-- `LinkedNameExpression` (bound phase); `target` is the arena index of
  the expression captured by the link closure -/
  | linked (target : Nat)
  /-- `ResolvedNamedExpression` (resolved phase) -/
  | resolvedRef (target : Nat)
  /-- `NativeFunctionNode` (`native/NativeExpression.ts`); carries the
  value returned by the wrapped host function -/
  | native (value : ℚ)
  deriving DecidableEq, Repr

/-- Truncation toward zero, as JS division truncates inside `%`. -/
def ratTrunc (q : ℚ) : ℤ := if 0 ≤ q then ⌊q⌋ else -⌊-q⌋

/-- JS `%` (remainder with the sign of the dividend):
`l - r * trunc(l / r)`. -/
def jsMod (l r : ℚ) : ℚ := l - r * (ratTrunc (l / r) : ℚ)

/-- `AstNode.bind` and its overrides.  `look` is the binding context's
`lookupName`, returning the arena index captured by the link closure. -/
def bindAst (look : List String → NameType → Except String Nat) :
    Ast → Except String Ast
  | .num v => .ok (.num v)
  | .unary op a => do
    let a' ← bindAst look a
    .ok (.unary op a')
  | .binary l op r => do
    let l' ← bindAst look l
    let r' ← bindAst look r
    .ok (.binary l' op r')
  | .name parts => do
    let t ← look parts .VALUE
    .ok (.linked t)
  | .linked _ => .error "LinkedNameExpression cannot be rebound"
  | .resolvedRef _ => .error "ResolvedNamedExpression cannot be rebound"
  | .native v => .ok (.native v)

/-- `AstNode.getDependencies` and its overrides.  `link` models invoking
the deferred accessor (`() => unbound.dependentExpression`), which throws
when the target has not been bound yet. -/
def astDeps (link : Nat → Except String Unit) :
    Ast → Except String (List Nat)
  | .num _ => .ok []
  | .unary _ a => astDeps link a
  | .binary l _ r => do
    let dl ← astDeps link l
    let dr ← astDeps link r
    .ok (dl ++ dr)
  | .name _ => .error "Unbound NameExpression cannot get dependencies"
  | .linked t => do
    link t
    .ok [t]
  | .resolvedRef _ => .error "ResolvedNamedExpression cannot get dependencies"
  | .native _ => .ok []

/-- `AstNode.resolve` and its overrides.  `isRes t` tells whether the
referenced expression is resolved: `LinkedNameExpression.resolve` reads
`dependentExpression.expression`, whose getter throws when the target is
not yet resolved. -/
def resolveAst (isRes : Nat → Bool) : Ast → Except String Ast
  | .num v => .ok (.num v)
  | .unary op a => do
    let a' ← resolveAst isRes a
    .ok (.unary op a')
  | .binary l op r => do
    let l' ← resolveAst isRes l
    let r' ← resolveAst isRes r
    .ok (.binary l' op r')
  | .name parts => .ok (.name parts)
  | .linked t =>
    if isRes t then .ok (.resolvedRef t) else .error "Expression not resolved yet"
  | .resolvedRef _ => .error "ResolvedNamedExpression is already resolved"
  | .native v => .ok (.native v)

/-- `AstNode.evaluate` and its overrides.  `refEval t` evaluates the
expression referenced by a `ResolvedNamedExpression`. -/
def evalAst (refEval : Nat → Except String ℚ) : Ast → Except String ℚ
  | .num v => .ok v
  | .unary op a => do
    let v ← evalAst refEval a
    match op with
    | .MINUS => .ok (-v)
    | _ => .error "Unsupported unary operator"
  | .binary l op r => do
    let vl ← evalAst refEval l
    let vr ← evalAst refEval r
    match op with
    | .PLUS => .ok (vl + vr)
    | .MINUS => .ok (vl - vr)
    | .STAR => .ok (vl * vr)
    | .SLASH => .ok (vl / vr)
    | .PERCENT => .ok (jsMod vl vr)
    | _ => .error "Unsupported operator"
  | .name _ => .error "evaluate() not implemented"
  | .linked _ => .error "evaluate() not implemented"
  | .resolvedRef t => refEval t
  | .native v => .ok v

/-! ### Lifecycle wrappers

One arena record models the `UnboundExpression` →
`DependentExpression` → `Expression` chain of a single registered
expression (`expressions/UnboundExpression.ts`,
`expressions/DependentExpression.ts`, `expressions/Expression.ts`). -/

structure ExprRec where
  /-- `UnboundExpression.root`: the symbolic AST, cleared by `bind`. -/
  root : Option Ast
  /-- `DependentExpression.ast_`: the bound AST, cleared by `resolve`. -/
  depAst : Option Ast
  /-- `Expression` root: present exactly when resolved
  (`DependentExpression.expression_`). -/
  resAst : Option Ast
  deriving DecidableEq, Repr

/-- A freshly parsed expression: phase 1 only. -/
def mkUnbound (a : Ast) : ExprRec := ⟨some a, none, none⟩

/-- `UnboundExpression.bind`: fails on a second call (`root` already
null); otherwise binds the AST and transfers ownership to the dependent
phase. -/
def bindExpr (look : List String → NameType → Except String Nat)
    (e : ExprRec) : Except String ExprRec :=
  match e.root with
  | none => .error "Expression already bound"
  | some a => do
    let b ← bindAst look a
    .ok ⟨none, some b, e.resAst⟩

/-- `DependentExpression.isResolved`. -/
def isResolvedE (e : ExprRec) : Bool := e.resAst.isSome

/-- `DependentExpression.hasUnresolvedDependencies`: discover the direct
dependency list from the bound AST, then check each for resolvedness.
`link` and `isRes` consult the arena. -/
def hasUnresolvedDepsE (link : Nat → Except String Unit)
    (isRes : Nat → Bool) (e : ExprRec) : Except String Bool :=
  match e.depAst with
  | none => .error "AST not available for dependency discovery"
  | some a => do
    let ds ← astDeps link a
    .ok (ds.any (fun t => !isRes t))

/-- `DependentExpression.resolve`: fails if already resolved or if a
dependency is unresolved; otherwise resolves the AST and moves it into
the final `Expression` wrapper. -/
def resolveExpr (link : Nat → Except String Unit) (isRes : Nat → Bool)
    (e : ExprRec) : Except String ExprRec :=
  match e.resAst with
  | some _ => .error "Already resolved"
  | none => do
    let b ← hasUnresolvedDepsE link isRes e
    if b then .error "Unresolved dependencies exist"
    else
      match e.depAst with
      | none => .error "AST not available for resolution"
      | some a => do
        let r ← resolveAst isRes a
        .ok ⟨e.root, none, some r⟩

/-! ### Parser (`parser/Parser.ts`)

The TS parser holds the current token and pulls from the lexer; the model
works on the token list produced by `tokenize`, whose last element is the
EOF token.  `curT`/`List.tail` are `this.current_`/`advance()`.  The
`fuel` argument only satisfies Lean's termination checker: every cycle of
recursive calls consumes at least one token, and `parseExpressionT` hands
the top-level call a fuel that is proven (and checked at the concrete
examples) to be sufficient. -/

/-- The current token; past the end of the stream the lexer keeps
returning EOF. -/
def curT (ts : List Token) : Token := ts.headD ⟨.EOF, [], 0, 0⟩

/-- Parse-result: node built so far plus the unconsumed tokens. -/
abbrev PRes := Except String (Ast × List Token)

mutual

/-- `Parser.parseAdditive`:
`additive → multiplicative (("+" | "-") multiplicative)*`. -/
def parseAdditive : Nat → List Token → PRes
  | 0, _ => .error "parser fuel exhausted"
  | fuel + 1, ts => do
    let (l, ts1) ← parseMultiplicative fuel ts
    parseAdditiveLoop fuel l ts1

/-- While-loop of `parseAdditive`, folding left-associatively. -/
def parseAdditiveLoop : Nat → Ast → List Token → PRes
  | 0, _, _ => .error "parser fuel exhausted"
  | fuel + 1, left, ts =>
    let t := curT ts
    if t.type = .PLUS || t.type = .MINUS then do
      let (r, ts1) ← parseMultiplicative fuel ts.tail
      parseAdditiveLoop fuel (.binary left t.type r) ts1
    else .ok (left, ts)

/-- `Parser.parseMultiplicative`:
`multiplicative → unary (("*" | "/" | "%") unary)*`. -/
def parseMultiplicative : Nat → List Token → PRes
  | 0, _ => .error "parser fuel exhausted"
  | fuel + 1, ts => do
    let (l, ts1) ← parseUnary fuel ts
    parseMultiplicativeLoop fuel l ts1

/-- While-loop of `parseMultiplicative`, folding left-associatively. -/
def parseMultiplicativeLoop : Nat → Ast → List Token → PRes
  | 0, _, _ => .error "parser fuel exhausted"
  | fuel + 1, left, ts =>
    let t := curT ts
    if t.type = .STAR || t.type = .SLASH || t.type = .PERCENT then do
      let (r, ts1) ← parseUnary fuel ts.tail
      parseMultiplicativeLoop fuel (.binary left t.type r) ts1
    else .ok (left, ts)

/-- `Parser.parseUnary`: `unary → "-" unary | primary` (right-recursive,
so `--5` nests two unary nodes). -/
def parseUnary : Nat → List Token → PRes
  | 0, _ => .error "parser fuel exhausted"
  | fuel + 1, ts =>
    let t := curT ts
    if t.type = .MINUS then do
      let (a, ts1) ← parseUnary fuel ts.tail
      .ok (.unary t.type a, ts1)
    else parsePrimary fuel ts

/-- `Parser.parsePrimary`:
`primary → NUMBER | IDENTIFIER ("." IDENTIFIER)* | "(" additive ")"`. -/
def parsePrimary : Nat → List Token → PRes
  | 0, _ => .error "parser fuel exhausted"
  | fuel + 1, ts =>
    let t := curT ts
    if t.type = .NUMBER then .ok (.num t.value, ts.tail)
    else if t.type = .IDENTIFIER then
      parseNameTail fuel [String.mk t.lexeme] ts.tail
    else if t.type = .LPAREN then do
      let (e, ts1) ← parseAdditive fuel ts.tail
      let t1 := curT ts1
      if t1.type = .RPAREN then .ok (e, ts1.tail)
      else .error ("Expected RPAREN at position " ++ toString t1.position)
    else
      .error ("Expected number, identifier, or LPAREN at position " ++
        toString t.position)

/-- Dotted-member while-loop of `parsePrimary`, accumulating name parts. -/
def parseNameTail : Nat → List String → List Token → PRes
  | 0, _, _ => .error "parser fuel exhausted"
  | fuel + 1, parts, ts =>
    let t := curT ts
    if t.type = .DOT then
      let t1 := curT ts.tail
      if t1.type = .IDENTIFIER then
        parseNameTail fuel (parts ++ [String.mk t1.lexeme]) ts.tail.tail
      else .error ("Expected IDENTIFIER at position " ++ toString t1.position)
    else .ok (.name parts, ts)

end

/-- `Parser.parseExpression`: parse a full additive expression and demand
that the whole input was consumed. -/
def parseExpressionT (ts : List Token) : Except String Ast := do
  let (root, ts1) ← parseAdditive (4 * ts.length + 8) ts
  if (curT ts1).type = .EOF then .ok root
  else .error ("Unexpected token at position " ++ toString (curT ts1).position)

/-- Top-level `parseExpression(text)`: lex then parse. -/
def parseExpression (s : List Char) : Except String Ast :=
  parseExpressionT (tokenize s)

/-! ### Resolver (`Resolver.ts`)

`resolveExpressions` is duck-typed over objects exposing `isResolved()`,
`hasUnresolvedDependencies()` and `resolve()`; the model abstracts the
heap those objects live on as a state `S` with the three operations, so
the very same loop runs both on the abstract flag batches used by the
dependency-order claims and on the module world during `compile()`.
Expressions are referenced by their arena index. -/

structure DepOps (S : Type) where
  /-- `de.isResolved()` -/
  isRes : S → Nat → Bool
  /-- `de.hasUnresolvedDependencies()` (may throw) -/
  hasUnres : S → Nat → Except String Bool
  /-- `de.resolve()` (mutates, may throw) -/
  resolveOne : S → Nat → Except String S

/-- One full inner pass (`for (i ...)`) scanning every expression in
order; threads the heap, the output list, the `madeProgress` flag and the
`unresolvedCount`. -/
def resolvePass (ops : DepOps S) :
    List Nat → S → List Nat → Bool → Nat →
    S × Except String (List Nat × Bool × Nat)
  | [], s, out, prog, cnt => (s, .ok (out, prog, cnt))
  | i :: is, s, out, prog, cnt =>
    if ops.isRes s i then resolvePass ops is s out prog cnt
    else
      match ops.hasUnres s i with
      | .error e => (s, .error e)
      | .ok true => resolvePass ops is s out prog (cnt + 1)
      | .ok false =>
        match ops.resolveOne s i with
        | .error e => (s, .error e)
        | .ok s' => resolvePass ops is s' (out ++ [i]) true cnt

/-- Outer pass loop (`for (j ...)`): the counter is bounded by the number
of inputs; break when no unresolved expression remains, fail when a full
pass made no progress while some remain.  Also returns the number of
passes performed (the source logs it). -/
def resolveLoop (ops : DepOps S) (ids : List Nat) :
    Nat → S → List Nat → Nat → S × Except String (List Nat × Nat)
  | 0, s, out, passes => (s, .ok (out, passes))
  | j + 1, s, out, passes =>
    match resolvePass ops ids s out false 0 with
    | (s', .error e) => (s', .error e)
    | (s', .ok (out', prog, cnt)) =>
      if cnt = 0 then (s', .ok (out', passes + 1))
      else if prog then resolveLoop ops ids j s' out' (passes + 1)
      else (s', .error "Circular dependency detected among expressions.")

/-- A JS argument that may fail the `Array.isArray` test. -/
inductive JsArg (α : Type) where
  | notArray
  | array (xs : List α)

/-- `resolveExpressions(dependentExpressions)`: fails immediately on a
non-array argument, otherwise runs at most `length` passes. -/
def resolveExpressions (ops : DepOps S) (s : S) (arg : JsArg Nat) :
    S × Except String (List Nat × Nat) :=
  match arg with
  | .notArray => (s, .error "No dependent expressions provided.")
  | .array ids => resolveLoop ops ids ids.length s [] 0

/-! #### Abstract batch instance

A batch of bound dependent expressions abstracted to its dependency
relation: expression `i` of the batch carries the (already discovered)
dependency list `deps.getD i []`, and the heap is the vector of
resolved-flags.  `resolveOne` re-performs the checks of
`DependentExpression.resolve`. -/

def flagOps (deps : List (List Nat)) : DepOps (List Bool) where
  isRes s i := s.getD i false
  hasUnres s i := .ok ((deps.getD i []).any (fun j => !s.getD j false))
  resolveOne s i :=
    if s.getD i false then .error "Already resolved"
    else if (deps.getD i []).any (fun j => !s.getD j false) then
      .error "Unresolved dependencies exist"
    else .ok (s.set i true)

/-- Run the resolver on an abstract batch (all flags start false; the
input array lists the whole batch in order, as `Module.compile` does). -/
def resolveFlags (deps : List (List Nat)) :
    List Bool × Except String (List Nat × Nat) :=
  resolveExpressions (flagOps deps) (List.replicate deps.length false)
    (.array (List.range deps.length))

/-- The flag vector after at most `k` passes over an abstract batch
(observer used to state the per-expression pass bound). -/
def flagsAfter (deps : List (List Nat)) (k : Nat) : List Bool :=
  (resolveLoop (flagOps deps) (List.range deps.length) k
    (List.replicate deps.length false) [] 0).1

/-! ### Binding context (`DefaultBindingContext.ts`)

Context objects form a graph through parent pointers and subcontext
tables; the model is an arena of context records indexed by `Nat`.
Providers are the arena index of the `UnboundExpression` captured by the
registered closure. -/

structure CtxData where
  parent : Option Nat
  /-- `symbols_ : Map<string, Map<NameType, Provider>>` -/
  symbols : List (String × List (NameType × Nat))
  /-- `subcontexts_ : Map<string, DefaultBindingContext>` -/
  subcontexts : List (String × Nat)
  deriving DecidableEq, Repr

structure CtxWorld where
  ctxs : List CtxData
  deriving DecidableEq, Repr

/-- Local symbol lookup: `symbols_.get(head)?.get(type)`. -/
def symLookup (c : CtxData) (head : String) (ty : NameType) : Option Nat :=
  match c.symbols.find? (fun p => p.1 = head) with
  | none => none
  | some p =>
    match p.2.find? (fun q => q.1 = ty) with
    | none => none
    | some q => some q.2

/-- Local subcontext lookup: `subcontexts_.get(head)`. -/
def subLookup (c : CtxData) (head : String) : Option Nat :=
  match c.subcontexts.find? (fun p => p.1 = head) with
  | none => none
  | some p => some p.2

/-- `DefaultBindingContext.lookupName` / `lookupRecursive`.  The fuel
bounds the recursion (each step either shortens the part list or moves to
a parent); the callers hand a fuel large enough for every well-formed
context graph. -/
def lookupNameC (cw : CtxWorld) : Nat → Nat → List String → NameType →
    Except String Nat
  | 0, _, _, _ => .error "context fuel exhausted"
  | fuel + 1, cid, parts, ty =>
    match cw.ctxs[cid]? with
    | none => .error "no such context"
    | some c =>
      match parts with
      | [] => .error "Name parts required"
      | head :: rest =>
        if head = "" then .error "Invalid name part"
        else if rest.isEmpty then
          match symLookup c head ty with
          | some prov => .ok prov
          | none =>
            match c.parent with
            | some p => lookupNameC cw fuel p [head] ty
            | none => .error ("Unresolved name: " ++ head)
        else
          match subLookup c head with
          | some sub => lookupNameC cw fuel sub rest ty
          | none =>
            match c.parent with
            | some p => lookupNameC cw fuel p (head :: rest) ty
            | none => .error (head ++ " is not an object")

/-! ### Module facade (`modules/Module.ts`)

Modules form a tree through parent pointers and submodule lists, with an
additional single name table mapping each name to either a value
expression or a mapped module.  The world is the pair of arenas (modules,
expressions); every operation threads it. -/

inductive EntryVal where
  | expr (eid : Nat)
  | module (mid : Nat)
  deriving DecidableEq, Repr

structure ModuleData where
  parent : Option Nat
  compiled : Bool
  /-- `names : Map<string, { type, value }>` in insertion order -/
  names : List (String × NameType × EntryVal)
  /-- `subModules` in creation order -/
  subs : List Nat
  deriving DecidableEq, Repr

structure World where
  mods : List ModuleData
  exprs : List ExprRec
  deriving DecidableEq, Repr

/-- Replace the element at an index (no-op when out of range). -/
def listModify (f : α → α) : Nat → List α → List α
  | _, [] => []
  | 0, x :: xs => f x :: xs
  | n + 1, x :: xs => x :: listModify f n xs

def updateModW (w : World) (mid : Nat) (f : ModuleData → ModuleData) :
    World :=
  { w with mods := listModify f mid w.mods }

def setExprW (w : World) (eid : Nat) (e : ExprRec) : World :=
  { w with exprs := w.exprs.set eid e }

/-- `names.get(name)`. -/
def findNameM (m : ModuleData) (name : String) :
    Option (NameType × EntryVal) :=
  match m.names.find? (fun p => p.1 = name) with
  | none => none
  | some p => some p.2

/-- `names.has(name)`. -/
def hasNameM (m : ModuleData) (name : String) : Bool :=
  m.names.any (fun p => p.1 = name)

/-- `Module.createRootModule()`. -/
def createRootModule (w : World) : World × Nat :=
  ({ w with mods := w.mods ++ [⟨none, false, [], []⟩] }, w.mods.length)

/-- `Module.addSubModule()`: fails on a compiled module (the private
constructor re-checks the same condition on the parent), otherwise
creates a child scope. -/
def addSubModuleW (w : World) (mid : Nat) : Except String (World × Nat) :=
  match w.mods[mid]? with
  | none => .error "no such module"
  | some m =>
    if m.compiled then
      .error "addSubModule: Cannot add a submodule to a compiled module"
    else
      let newMid := w.mods.length
      let w1 := { w with mods := w.mods ++ [⟨some mid, false, [], []⟩] }
      .ok (updateModW w1 mid (fun md => { md with subs := md.subs ++ [newMid] }),
        newMid)

/-- `Module.assertNotCompiled` guard followed by the duplicate-name check
shared by `addExpression`, `addNativeExpression` and `mapModule`. -/
def guardAdd (m : ModuleData) (fname name : String) : Except String Unit :=
  if m.compiled then .error ("Cannot modify a compiled module: " ++ fname)
  else if hasNameM m name then
    .error ("Expression with name " ++ name ++ " already exists in this module")
  else .ok ()

/-- `Module.addExpression(name, expression)`: parse immediately, register
under NameType.VALUE, return the arena index of the new expression (the
accessor closure captures exactly this expression). -/
def addExpressionW (w : World) (mid : Nat) (name : String)
    (txt : List Char) : Except String (World × Nat) :=
  match w.mods[mid]? with
  | none => .error "no such module"
  | some m => do
    guardAdd m "addExpression" name
    let ast ← parseExpression txt
    let eid := w.exprs.length
    let w1 := { w with exprs := w.exprs ++ [mkUnbound ast] }
    .ok (updateModW w1 mid (fun md =>
      { md with names := md.names ++ [(name, NameType.VALUE, .expr eid)] }),
      eid)

/-- `Module.addNativeExpression(name, fn)`: wraps a host function
(modelled by the value it returns) in a `NativeFunctionNode`. -/
def addNativeExpressionW (w : World) (mid : Nat) (name : String)
    (v : ℚ) : Except String (World × Nat) :=
  match w.mods[mid]? with
  | none => .error "no such module"
  | some m => do
    guardAdd m "addNativeExpression" name
    let eid := w.exprs.length
    let w1 := { w with exprs := w.exprs ++ [mkUnbound (.native v)] }
    .ok (updateModW w1 mid (fun md =>
      { md with names := md.names ++ [(name, NameType.VALUE, .expr eid)] }),
      eid)

/-- Ancestor chain of a module, starting with the module itself (the
`while (current)` walk of `hasCommonAncestor`). -/
def ancestorsW (w : World) : Nat → Nat → List Nat
  | 0, _ => []
  | fuel + 1, mid =>
    mid ::
      (match w.mods[mid]? with
      | some m =>
        match m.parent with
        | some p => ancestorsW w fuel p
        | none => []
      | none => [])

/-- `Module.hasCommonAncestor(other)`: collect this module's ancestors
(including itself), then walk the other chain looking for a member. -/
def hasCommonAncestorW (w : World) (a b : Nat) : Bool :=
  let anc := ancestorsW w (w.mods.length + 1) a
  (ancestorsW w (w.mods.length + 1) b).any (fun x => anc.contains x)

/-- `Module.mapModule(name, module)`: register an alias to another module
under NameType.OBJECT; fails without a common ancestor. -/
def mapModuleW (w : World) (mid : Nat) (name : String) (otherMid : Nat) :
    Except String World :=
  match w.mods[mid]? with
  | none => .error "no such module"
  | some m => do
    guardAdd m "mapModule" name
    if hasCommonAncestorW w mid otherMid then
      .ok (updateModW w mid (fun md =>
        { md with names := md.names ++ [(name, NameType.OBJECT, .module otherMid)] }))
    else .error "Mapped module must share a common ancestor with this module"

/-- `Module.lookupName(parts, type)` (the `BindingContext` each module
passes to `bind`): final segment hits a local VALUE entry of the
requested type, inner segments traverse mapped modules, misses delegate
to the parent with the unshortened part list. -/
def lookupNameM (w : World) : Nat → Nat → List String → NameType →
    Except String Nat
  | 0, _, _, _ => .error "module fuel exhausted"
  | fuel + 1, mid, parts, ty =>
    match w.mods[mid]? with
    | none => .error "no such module"
    | some m =>
      match parts with
      | [] => .error "Name parts required"
      | head :: rest =>
        if head = "" then .error "Invalid name part"
        else if rest.isEmpty then
          match findNameM m head with
          | some (t, v) =>
            if t = ty && t = NameType.VALUE then
              match v with
              | .expr eid => .ok eid
              | .module _ => .error "invalid VALUE entry"
            else
              match m.parent with
              | some p => lookupNameM w fuel p parts ty
              | none => .error ("Unresolved name: " ++ head)
          | none =>
            match m.parent with
            | some p => lookupNameM w fuel p parts ty
            | none => .error ("Unresolved name: " ++ head)
        else
          match findNameM m head with
          | some (NameType.OBJECT, .module mapped) =>
            lookupNameM w fuel mapped rest ty
          | some (NameType.OBJECT, .expr _) => .error "invalid OBJECT entry"
          | _ =>
            match m.parent with
            | some p => lookupNameM w fuel p parts ty
            | none => .error (head ++ " is not an object")

/-- Fuel ample for any lookup in `w`: each recursion step either drops a
name part or moves to a parent module. -/
def lookFuelW (w : World) (parts : List String) : Nat :=
  (parts.length + 1) * (w.mods.length + 1)

/-- `de.isResolved()` on the expression arena. -/
def wIsRes (w : World) (t : Nat) : Bool :=
  match w.exprs[t]? with
  | some e => isResolvedE e
  | none => false

/-- Invoking the deferred link closure `() => unbound.dependentExpression`:
throws when the captured expression has not been bound. -/
def wLink (w : World) (t : Nat) : Except String Unit :=
  match w.exprs[t]? with
  | some e => if e.root.isSome then .error "Expression not yet bound" else .ok ()
  | none => .error "Expression not yet bound"

/-- The resolver operations of the module world: expression `i` of the
batch is arena slot `i`. -/
def worldOps : DepOps World where
  isRes := wIsRes
  hasUnres w i :=
    match w.exprs[i]? with
    | none => .error "AST not available for dependency discovery"
    | some e => hasUnresolvedDepsE (wLink w) (wIsRes w) e
  resolveOne w i :=
    match w.exprs[i]? with
    | none => .error "AST not available for resolution"
    | some e =>
      match resolveExpr (wLink w) (wIsRes w) e with
      | .error err => .error err
      | .ok e' => .ok (setExprW w i e')

/-- Bind the VALUE entries of one module's name table, in insertion
order, each against this module's `lookupName` context
(`Module.bindExpressions`, local half). -/
def bindLocalsW (mid : Nat) :
    World → List (String × NameType × EntryVal) →
    World × Except String (List Nat)
  | w, [] => (w, .ok [])
  | w, (_, t, v) :: rest =>
    if t = NameType.VALUE then
      match v with
      | .expr eid =>
        match w.exprs[eid]? with
        | none => (w, .error "missing expression")
        | some e =>
          match bindExpr (fun parts ty =>
              lookupNameM w (lookFuelW w parts) mid parts ty) e with
          | .error err => (w, .error err)
          | .ok e' =>
            match bindLocalsW mid (setExprW w eid e') rest with
            | (w2, .error err) => (w2, .error err)
            | (w2, .ok ids) => (w2, .ok (eid :: ids))
      | .module _ => (w, .error "invalid VALUE entry")
    else bindLocalsW mid w rest

/-- `Module.bindExpressions`, defunctionalized into a depth-first
worklist: binding a module binds its local VALUE expressions, then the
whole subtree of each submodule in order, concatenating the batches —
`work (mid :: rest) = locals mid ++ work (subs mid ++ rest)` unfolds to
exactly the source's recursion.  The fuel decreases once per processed
module; a tree never exhausts `mods.length + 1`. -/
def bindWorkW : Nat → World → List Nat → World × Except String (List Nat)
  | 0, w, _ => (w, .error "module tree fuel exhausted")
  | _ + 1, w, [] => (w, .ok [])
  | fuel + 1, w, mid :: rest =>
    match w.mods[mid]? with
    | none => (w, .error "no such module")
    | some m =>
      match bindLocalsW mid w m.names with
      | (w1, .error e) => (w1, .error e)
      | (w1, .ok ids) =>
        match bindWorkW fuel w1 (m.subs ++ rest) with
        | (w2, .error e) => (w2, .error e)
        | (w2, .ok ids2) => (w2, .ok (ids ++ ids2))

/-- `Module.bindExpressions` from the compile root. -/
def bindModuleW (fuel : Nat) (w : World) (mid : Nat) :
    World × Except String (List Nat) :=
  bindWorkW fuel w [mid]

/-- `Module.compile()`: root-only, one-way.  The `compiled` flag is set
before binding and resolution run, so a failure partway leaves the module
compiled-but-broken. -/
def compileW (w : World) (mid : Nat) : World × Except String Unit :=
  match w.mods[mid]? with
  | none => (w, .error "no such module")
  | some m =>
    if m.compiled then (w, .error "Module is already compiled")
    else if m.parent.isSome then (w, .error "Only the root module can be compiled")
    else
      let w1 := updateModW w mid (fun md => { md with compiled := true })
      match bindModuleW (w1.mods.length + 1) w1 mid with
      | (w2, .error e) => (w2, .error e)
      | (w2, .ok ids) =>
        match resolveExpressions worldOps w2 (.array ids) with
        | (w3, .error e) => (w3, .error e)
        | (w3, .ok _) => (w3, .ok ())

/-- The accessor closure returned by `addExpression` /
`addNativeExpression`: reads `unbound.dependentExpression.expression`,
whose getters throw before the root module has compiled (and resolved)
this expression. -/
def accessorW (w : World) (eid : Nat) : Except String Ast :=
  match w.exprs[eid]? with
  | none => .error "Expression not yet bound"
  | some e =>
    if e.root.isSome then .error "Expression not yet bound"
    else
      match e.resAst with
      | none => .error "Expression not resolved yet"
      | some r => .ok r

/-! ### Standalone pipeline

`parseExpression` → `bind` on a fresh empty `DefaultBindingContext` →
`resolve` → `evaluate`, as the parser tests drive it.  The context world
holds the single empty context; no sibling expressions exist, so the
link/isRes oracles reject every reference (a pure formula never consults
them). -/

def emptyCtxWorld : CtxWorld := ⟨[⟨none, [], []⟩]⟩

def evalString (s : List Char) : Except String ℚ := do
  let ast ← parseExpression s
  let e1 ← bindExpr (fun parts ty => lookupNameC emptyCtxWorld
    (parts.length + 2) 0 parts ty) (mkUnbound ast)
  let e2 ← resolveExpr (fun _ => .error "Expression not yet bound")
    (fun _ => false) e1
  match e2.resAst with
  | some r => evalAst (fun _ => .error "no referenced expression") r
  | none => .error "not resolved"

/-! ### Specification-side formulas

The round-trip claim quantifies over formulas built from decimal
literals, the five binary operators, unary minus and parentheses.
`Formula` is the spec-side notion of such an expression; `specVal` is its
value under standard operator precedence; `render` prints it with a
minimal-parenthesis precedence-directed printer (tokens separated by
single spaces), so left-associativity and precedence of the concrete
syntax are genuinely exercised. -/

inductive Formula where
  | lit (n : Nat)
  | neg (a : Formula)
  | add (a b : Formula)
  | sub (a b : Formula)
  | mul (a b : Formula)
  | div (a b : Formula)
  | mod (a b : Formula)
  deriving DecidableEq, Repr

/-- The value of a formula under standard precedence (which, on a tree,
is plain recursive evaluation with the JS operator semantics). -/
def specVal : Formula → ℚ
  | .lit n => n
  | .neg a => -specVal a
  | .add a b => specVal a + specVal b
  | .sub a b => specVal a - specVal b
  | .mul a b => specVal a * specVal b
  | .div a b => specVal a / specVal b
  | .mod a b => jsMod (specVal a) (specVal b)

/-- Operator precedence of the root: additive 1, multiplicative 2,
unary 3, atoms 4. -/
def precF : Formula → Nat
  | .lit _ => 4
  | .neg _ => 3
  | .mul _ _ | .div _ _ | .mod _ _ => 2
  | .add _ _ | .sub _ _ => 1

/-- Spec-side tokens emitted by the printer. -/
inductive FTok where
  | fnum (n : Nat)
  | fplus | fminus | fstar | fslash | fpct | flparen | frparen
  deriving DecidableEq, Repr

/-- Token kind and numeric value a lexed `FTok` must carry. -/
def ftProj : FTok → TokenType × ℚ
  | .fnum n => (.NUMBER, (n : ℚ))
  | .fplus => (.PLUS, 0)
  | .fminus => (.MINUS, 0)
  | .fstar => (.STAR, 0)
  | .fslash => (.SLASH, 0)
  | .fpct => (.PERCENT, 0)
  | .flparen => (.LPAREN, 0)
  | .frparen => (.RPAREN, 0)

/-- Decimal digits of a natural number, most significant first. -/
def natDigits (n : Nat) : List Char :=
  if h : n < 10 then [Char.ofNat (48 + n)]
  else natDigits (n / 10) ++ [Char.ofNat (48 + n % 10)]
decreasing_by exact Nat.div_lt_self (by omega) (by omega)

/-- Characters of one spec-side token. -/
def ftChars1 : FTok → List Char
  | .fnum n => natDigits n
  | .fplus => ['+']
  | .fminus => ['-']
  | .fstar => ['*']
  | .fslash => ['/']
  | .fpct => ['%']
  | .flparen => ['(']
  | .frparen => [')']

/-- Characters of a spec-side token list, one space after each token. -/
def ftChars (L : List FTok) : List Char :=
  L.flatMap (fun t => ftChars1 t ++ [' '])

/-- Wrap in parentheses when the printer decides the context demands
them. -/
def wrapF (c : Bool) (xs : List FTok) : List FTok :=
  if c then .flparen :: (xs ++ [.frparen]) else xs

/-- Precedence-directed printing to spec tokens: a node is parenthesized
exactly when its precedence is below the context's. -/
def flatF : Formula → Nat → List FTok
  | .lit n, _ => [.fnum n]
  | .neg a, ctx => wrapF (decide (3 < ctx)) (.fminus :: flatF a 3)
  | .add a b, ctx => wrapF (decide (1 < ctx)) (flatF a 1 ++ .fplus :: flatF b 2)
  | .sub a b, ctx => wrapF (decide (1 < ctx)) (flatF a 1 ++ .fminus :: flatF b 2)
  | .mul a b, ctx => wrapF (decide (2 < ctx)) (flatF a 2 ++ .fstar :: flatF b 3)
  | .div a b, ctx => wrapF (decide (2 < ctx)) (flatF a 2 ++ .fslash :: flatF b 3)
  | .mod a b, ctx => wrapF (decide (2 < ctx)) (flatF a 2 ++ .fpct :: flatF b 3)

/-- Minimal-parenthesis concrete syntax of a formula. -/
def render (f : Formula) : List Char := ftChars (flatF f 1)

/-- The AST the grammar assigns to a formula. -/
def astOf : Formula → Ast
  | .lit n => .num n
  | .neg a => .unary .MINUS (astOf a)
  | .add a b => .binary (astOf a) .PLUS (astOf b)
  | .sub a b => .binary (astOf a) .MINUS (astOf b)
  | .mul a b => .binary (astOf a) .STAR (astOf b)
  | .div a b => .binary (astOf a) .SLASH (astOf b)
  | .mod a b => .binary (astOf a) .PERCENT (astOf b)

/-- Characters the lexer recognizes as the start of some token. -/
def recognizedTok (c : Char) : Bool :=
  isDigitC c || isAlphaC c ||
    (c = '+' || c = '-' || c = '*' || c = '/' ||
     c = '%' || c = '.' || c = '(' || c = ')')

/-- An empty module world. -/
def emptyWorld : World := ⟨[], []⟩

/-- The cycle scenario of the spec: a root module with `x = "2*y"` and
`y = "x/2"`, compiled. -/
def cycleScenario : World × Except String Unit :=
  match addExpressionW (createRootModule emptyWorld).1 0 "x" ("2*y".toList) with
  | .error e => (emptyWorld, .error e)
  | .ok (w2, _) =>
    match addExpressionW w2 0 "y" ("x/2".toList) with
    | .error e => (emptyWorld, .error e)
    | .ok (w3, _) => compileW w3 0

/-! ### Printer decompositions used by the round-trip proof

The parser folds `+`/`-` (and `*`/`/`/`%`) chains left-associatively in a
loop, while a `Formula` nests them as a tree; the spines below expose a
formula's leftmost operator chain in the order the printer emits it and
the parser consumes it. -/

/-- Kind/value projection of a lexed token: everything the parser reads
from a token on the grammar's arithmetic fragment. -/
def projT (t : Token) : TokenType × ℚ := (t.type, t.value)

/-- A token list carries exactly the kinds and values of a spec-side
token list. -/
def TokMatch (ts : List Token) (L : List FTok) : Prop :=
  ts.map projT = L.map ftProj

/-- The additive spine: the head is the leftmost non-additive subterm,
the list holds the `+`/`-` operators and their right operands in printing
order. -/
def addSpine : Formula → Formula × List (FTok × Formula)
  | .add a b => ((addSpine a).1, (addSpine a).2 ++ [(.fplus, b)])
  | .sub a b => ((addSpine a).1, (addSpine a).2 ++ [(.fminus, b)])
  | f => (f, [])

/-- The multiplicative spine: the head is the leftmost non-multiplicative
subterm, the list holds the `*`/`/`/`%` operators and their right
operands in printing order. -/
def mulSpine : Formula → Formula × List (FTok × Formula)
  | .mul a b => ((mulSpine a).1, (mulSpine a).2 ++ [(.fstar, b)])
  | .div a b => ((mulSpine a).1, (mulSpine a).2 ++ [(.fslash, b)])
  | .mod a b => ((mulSpine a).1, (mulSpine a).2 ++ [(.fpct, b)])
  | f => (f, [])

deriving instance DecidableEq for Except

/-! ## Theorems -/

section ClaimProofs

attribute [local semireducible] Rat.add Rat.sub Rat.mul Rat.inv

/-- Reduction of the Except monad: bind on a success. -/
@[simp] theorem exceptOkBind (a : α) (f : α → Except ε β) :
    (Except.ok a >>= f) = f a := rfl

/-- Reduction of the Except monad: bind on a failure. -/
@[simp] theorem exceptErrBind (e : ε) (f : α → Except ε β) :
    (Except.error e >>= f : Except ε β) = Except.error e := rfl

/-- C9: `resolveExpressions` applied to the empty list returns the empty
list without error (in zero passes), for any expression heap whatsoever;
applied to a non-array argument it fails immediately, before any
expression operation can run. -/
theorem resolver_empty_and_nonarray :
    (∀ (S : Type) (ops : DepOps S) (s : S),
      resolveExpressions ops s (.array []) = (s, .ok ([], 0))) ∧
    (∀ (S : Type) (ops : DepOps S) (s : S),
      resolveExpressions ops s .notArray =
        (s, .error "No dependent expressions provided.")) := by
  exact ⟨fun S ops s => rfl, fun S ops s => rfl⟩

/-- C8: `nextToken` is total — for every source and cursor position it
returns a token (never fails): once skipping whitespace exhausts the
source it returns the explicit end-of-input token, and when the first
significant character is not recognized it returns an UNKNOWN token
carrying that character and its position. -/
theorem lexer_next_token_total (src : List Char) (p : Nat) :
    (∃ t st, nextToken ⟨src, p⟩ = (t, st)) ∧
    ((skipWs src p).rest = [] →
      nextToken ⟨src, p⟩ = (⟨.EOF, [], (skipWs src p).pos, 0⟩, skipWs src p)) ∧
    (∀ c cs, (skipWs src p).rest = c :: cs → recognizedTok c = false →
      nextToken ⟨src, p⟩ =
        (⟨.UNKNOWN, [c], (skipWs src p).pos, 0⟩, ⟨cs, (skipWs src p).pos + 1⟩)) := by
  refine ⟨⟨_, _, rfl⟩, ?_, ?_⟩
  · intro h
    rcases hs : skipWs src p with ⟨r, q⟩
    rw [hs] at h
    simp only at h
    subst h
    simp [nextToken, hs]
  · intro c cs h hrec
    rcases hs : skipWs src p with ⟨r, q⟩
    rw [hs] at h
    simp only at h
    subst h
    simp only [recognizedTok, Bool.or_eq_false_iff,
      decide_eq_false_iff_not] at hrec
    simp [nextToken, hs, hrec]

/-- Witness for C8 at the concrete input `"@"`. -/
theorem lexer_next_token_total_witness :
    nextToken ⟨['@'], 0⟩ = (⟨.UNKNOWN, ['@'], 0, 0⟩, ⟨[], 1⟩) := by
  have h := (lexer_next_token_total ['@'] 0).2.2 '@' [] (by decide) (by decide)
  simpa using h

/-- C5: every phase transition is single-use — a second `bind` on the
same UnboundExpression fails with "Expression already bound", a second
`resolve` on the same DependentExpression fails with "Already resolved",
and the accessor returned by `addExpression` / `addNativeExpression`
fails when called on the world the registration produced (the root has
not been compiled, so the expression is still unbound). -/
theorem phase_transitions_single_use :
    (∀ (look look2 : List String → NameType → Except String Nat)
        (e e' : ExprRec), bindExpr look e = .ok e' →
      bindExpr look2 e' = .error "Expression already bound") ∧
    (∀ (link isRes link2 isRes2) (e e' : ExprRec),
        resolveExpr link isRes e = .ok e' →
      resolveExpr link2 isRes2 e' = .error "Already resolved") ∧
    (∀ w mid name txt w' eid,
        addExpressionW w mid name txt = .ok (w', eid) →
      accessorW w' eid = .error "Expression not yet bound") ∧
    (∀ w mid name v w' eid,
        addNativeExpressionW w mid name v = .ok (w', eid) →
      accessorW w' eid = .error "Expression not yet bound") := by
  refine ⟨?_, ?_, ?_, ?_⟩
  · intro look look2 e e' h
    cases hr : e.root with
    | none => simp [bindExpr, hr] at h
    | some a =>
      simp only [bindExpr, hr] at h
      cases hb : bindAst look a with
      | error msg => simp [hb] at h
      | ok b =>
        simp only [hb, exceptOkBind] at h
        cases h
        simp [bindExpr]
  · intro link isRes link2 isRes2 e e' h
    cases hr : e.resAst with
    | some r => simp [resolveExpr, hr] at h
    | none =>
      simp only [resolveExpr, hr] at h
      cases hu : hasUnresolvedDepsE link isRes e with
      | error msg => simp [hu] at h
      | ok b =>
        simp only [hu, exceptOkBind] at h
        cases b with
        | true => simp at h
        | false =>
          simp only [Bool.false_eq_true, if_false] at h
          cases hd : e.depAst with
          | none => simp [hd] at h
          | some a =>
            simp only [hd] at h
            cases hra : resolveAst isRes a with
            | error msg => simp [hra] at h
            | ok r =>
              simp only [hra, exceptOkBind] at h
              cases h
              simp [resolveExpr]
  · intro w mid name txt w' eid h
    cases hm : w.mods[mid]? with
    | none => simp [addExpressionW, hm] at h
    | some m =>
      simp only [addExpressionW, hm] at h
      cases hg : guardAdd m "addExpression" name with
      | error msg => simp [hg] at h
      | ok u =>
        simp only [hg, exceptOkBind] at h
        cases hp : parseExpression txt with
        | error msg => simp [hp] at h
        | ok ast =>
          simp only [hp, exceptOkBind] at h
          cases h
          simp [accessorW, updateModW, List.getElem?_concat_length, mkUnbound]
  · intro w mid name v w' eid h
    cases hm : w.mods[mid]? with
    | none => simp [addNativeExpressionW, hm] at h
    | some m =>
      simp only [addNativeExpressionW, hm] at h
      cases hg : guardAdd m "addNativeExpression" name with
      | error msg => simp [hg] at h
      | ok u =>
        simp only [hg, exceptOkBind] at h
        cases h
        simp [accessorW, updateModW, List.getElem?_concat_length, mkUnbound]

/-- Witness for C5 at concrete inputs: bind-then-bind on `1`,
resolve-then-resolve, and the accessor of a fresh `addExpression` /
`addNativeExpression` on a fresh root module. -/
theorem phase_transitions_single_use_witness :
    (bindExpr (fun _ _ => .error "") ⟨none, some (.num 1), none⟩ =
      .error "Expression already bound") ∧
    (resolveExpr (fun _ => .error "") (fun _ => false) ⟨none, none, some (.num 1)⟩ =
      .error "Already resolved") ∧
    (∀ w' eid, addExpressionW (createRootModule emptyWorld).1 0 "a" ("1".toList) =
        .ok (w', eid) → accessorW w' eid = .error "Expression not yet bound") ∧
    (∀ w' eid, addNativeExpressionW (createRootModule emptyWorld).1 0 "n" 2 =
        .ok (w', eid) → accessorW w' eid = .error "Expression not yet bound") := by
  refine ⟨?_, ?_, ?_, ?_⟩
  · exact phase_transitions_single_use.1 (fun _ _ => .error "") (fun _ _ => .error "")
      (mkUnbound (.num 1)) ⟨none, some (.num 1), none⟩ (by decide)
  · exact phase_transitions_single_use.2.1 (fun _ => .error "") (fun _ => false)
      (fun _ => .error "") (fun _ => false)
      ⟨none, some (.num 1), none⟩ ⟨none, none, some (.num 1)⟩ (by decide)
  · intro w' eid h
    exact phase_transitions_single_use.2.2.1 _ 0 "a" ("1".toList) w' eid h
  · intro w' eid h
    exact phase_transitions_single_use.2.2.2 _ 0 "n" 2 w' eid h

/-- `listModify` looks up to a mapped entry at the modified index. -/
theorem listModify_getElem_self (f : α → α) :
    ∀ (l : List α) (i : Nat), (listModify f i l)[i]? = (l[i]?).map f := by
  intro l
  induction l with
  | nil => intro i; cases i <;> rfl
  | cons x xs ih =>
    intro i
    cases i with
    | zero => simp [listModify]
    | succ n => simpa [listModify] using ih n

/-- `listModify` leaves other indices unchanged. -/
theorem listModify_getElem_other (f : α → α) :
    ∀ (l : List α) (i j : Nat), i ≠ j → (listModify f i l)[j]? = l[j]? := by
  intro l
  induction l with
  | nil => intro i j _; cases i <;> rfl
  | cons x xs ih =>
    intro i j hij
    cases i with
    | zero =>
      cases j with
      | zero => exact absurd rfl hij
      | succ m => simp [listModify]
    | succ n =>
      cases j with
      | zero => simp [listModify]
      | succ m => simpa [listModify] using ih n m (by omega)

/-- `bindLocals` only rewrites the expression arena. -/
theorem bindLocalsW_mods (mid : Nat) :
    ∀ (names : List (String × NameType × EntryVal)) (w : World),
      (bindLocalsW mid w names).1.mods = w.mods := by
  intro names
  induction names with
  | nil => intro w; rfl
  | cons hd rest ih =>
    intro w
    obtain ⟨nm, t, v⟩ := hd
    by_cases ht : t = NameType.VALUE
    · subst ht
      cases v with
      | module m => simp [bindLocalsW]
      | expr eid =>
        simp only [bindLocalsW, if_pos rfl]
        cases he : w.exprs[eid]? with
        | none => rfl
        | some e =>
          simp only
          cases hb : bindExpr (fun parts ty =>
              lookupNameM w (lookFuelW w parts) mid parts ty) e with
          | error err => rfl
          | ok e' =>
            simp only
            have h1 := ih (setExprW w eid e')
            cases hrec : bindLocalsW mid (setExprW w eid e') rest with
            | mk w2 r =>
              rw [hrec] at h1
              cases r <;> exact h1
    · simp only [bindLocalsW, if_neg ht]
      exact ih w

/-- Binding a subtree only rewrites the expression arena. -/
theorem bindWorkW_mods :
    ∀ (fuel : Nat) (w : World) (work : List Nat),
      (bindWorkW fuel w work).1.mods = w.mods := by
  intro fuel
  induction fuel with
  | zero => intro w work; rfl
  | succ n ih =>
    intro w work
    cases work with
    | nil => rfl
    | cons mid rest =>
      simp only [bindWorkW]
      cases hm : w.mods[mid]? with
      | none => rfl
      | some m =>
        simp only
        have h1 := bindLocalsW_mods mid m.names w
        cases hloc : bindLocalsW mid w m.names with
        | mk w1 r =>
          rw [hloc] at h1
          cases r with
          | error e => exact h1
          | ok ids =>
            simp only
            have h2 := ih w1 (m.subs ++ rest)
            cases hrec : bindWorkW n w1 (m.subs ++ rest) with
            | mk w2 r2 =>
              rw [hrec] at h2
              cases r2 <;> exact h2.trans h1

/-- Any observation `P` that `resolveOne` preserves is preserved by a
whole resolver pass. -/
theorem resolvePass_obs {S : Type} (ops : DepOps S) (P : S → α)
    (hres : ∀ s i s', ops.resolveOne s i = .ok s' → P s' = P s) :
    ∀ (ids : List Nat) (s : S) (out : List Nat) (prog : Bool) (cnt : Nat),
      P (resolvePass ops ids s out prog cnt).1 = P s := by
  intro ids
  induction ids with
  | nil => intro s out prog cnt; rfl
  | cons i is ih =>
    intro s out prog cnt
    simp only [resolvePass]
    by_cases hr : ops.isRes s i
    · simp only [hr, if_pos]
      exact ih s out prog cnt
    · simp only [hr, if_neg, Bool.false_eq_true]
      cases hu : ops.hasUnres s i with
      | error e => rfl
      | ok b =>
        cases b with
        | true => exact ih s out prog (cnt + 1)
        | false =>
          simp only
          cases ho : ops.resolveOne s i with
          | error e => rfl
          | ok s' => exact (ih s' (out ++ [i]) true cnt).trans (hres s i s' ho)

/-- Any observation `P` that `resolveOne` preserves is preserved by the
resolver loop. -/
theorem resolveLoop_obs {S : Type} (ops : DepOps S) (P : S → α)
    (hres : ∀ s i s', ops.resolveOne s i = .ok s' → P s' = P s)
    (ids : List Nat) :
    ∀ (fuel : Nat) (s : S) (out : List Nat) (passes : Nat),
      P (resolveLoop ops ids fuel s out passes).1 = P s := by
  intro fuel
  induction fuel with
  | zero => intro s out passes; rfl
  | succ j ih =>
    intro s out passes
    simp only [resolveLoop]
    have hp := resolvePass_obs ops P hres ids s out false 0
    cases hpass : resolvePass ops ids s out false 0 with
    | mk s' r =>
      rw [hpass] at hp
      cases r with
      | error e => exact hp
      | ok tr =>
        obtain ⟨out', prog, cnt⟩ := tr
        simp only
        by_cases hc : cnt = 0
        · simp only [hc, if_pos]; exact hp
        · simp only [hc, if_neg, Bool.false_eq_true]
          cases prog with
          | true => exact (ih s' out' (passes + 1)).trans hp
          | false => exact hp

/-- `resolveOne` of the world instance only rewrites the expression
arena. -/
theorem worldOps_resolveOne_mods (w : World) (i : Nat) (w' : World)
    (h : worldOps.resolveOne w i = .ok w') : w'.mods = w.mods := by
  simp only [worldOps] at h
  split at h
  · simp at h
  · split at h
    · simp at h
    · cases h; rfl

/-- C6: the Module state machine OPEN → COMPILED is one-way with no
rollback — `compile()` fails on a non-root or already-compiled module;
when the checks pass, the only change `compile` ever makes to the module
arena is setting this module's `compiled` flag, whatever the outcome of
binding and resolution; and on a compiled module every one of
`addExpression`, `addNativeExpression`, `addSubModule`, `mapModule`,
`compile` fails. -/
theorem module_compile_one_way :
    (∀ w mid m, w.mods[mid]? = some m → m.compiled = true →
      compileW w mid = (w, .error "Module is already compiled")) ∧
    (∀ w mid m, w.mods[mid]? = some m → m.compiled = false →
      m.parent.isSome = true →
      compileW w mid = (w, .error "Only the root module can be compiled")) ∧
    (∀ w mid m, w.mods[mid]? = some m → m.compiled = false →
      m.parent = none →
      (compileW w mid).1.mods =
        listModify (fun md => { md with compiled := true }) mid w.mods ∧
      ∃ m', (compileW w mid).1.mods[mid]? = some m' ∧ m'.compiled = true) ∧
    (∀ w mid m, w.mods[mid]? = some m → m.compiled = true →
      addSubModuleW w mid =
        .error "addSubModule: Cannot add a submodule to a compiled module" ∧
      (∀ name txt, addExpressionW w mid name txt =
        .error "Cannot modify a compiled module: addExpression") ∧
      (∀ name v, addNativeExpressionW w mid name v =
        .error "Cannot modify a compiled module: addNativeExpression") ∧
      (∀ name o, mapModuleW w mid name o =
        .error "Cannot modify a compiled module: mapModule") ∧
      compileW w mid = (w, .error "Module is already compiled")) := by
  have hcompiled : ∀ w mid m, w.mods[mid]? = some m → m.compiled = true →
      compileW w mid = (w, .error "Module is already compiled") := by
    intro w mid m hm hc
    simp [compileW, hm, hc]
  have hmods : ∀ w mid m, w.mods[mid]? = some m → m.compiled = false →
      m.parent = none →
      (compileW w mid).1.mods =
        listModify (fun md => { md with compiled := true }) mid w.mods := by
    intro w mid m hm hc hp
    simp only [compileW, hm, hc, hp]
    simp only [Bool.false_eq_true, if_neg, Option.isSome_none, if_false,
      bindModuleW]
    set w1 := updateModW w mid (fun md => { md with compiled := true }) with hw1
    have hbind := bindWorkW_mods (w1.mods.length + 1) w1 [mid]
    cases hb : bindWorkW (w1.mods.length + 1) w1 [mid] with
    | mk w2 r =>
      rw [hb] at hbind
      cases r with
      | error e => exact hbind
      | ok ids =>
        simp only
        have hres : (resolveExpressions worldOps w2 (.array ids)).1.mods =
            w2.mods :=
          resolveLoop_obs worldOps World.mods
            worldOps_resolveOne_mods ids ids.length w2 [] 0
        cases hr : resolveExpressions worldOps w2 (.array ids) with
        | mk w3 r2 =>
          rw [hr] at hres
          cases r2 <;> exact hres.trans hbind
  refine ⟨hcompiled, ?_, ?_, ?_⟩
  · intro w mid m hm hc hp
    simp [compileW, hm, hc, hp]
  · intro w mid m hm hc hp
    refine ⟨hmods w mid m hm hc hp, ?_⟩
    refine ⟨{ m with compiled := true }, ?_, rfl⟩
    rw [hmods w mid m hm hc hp, listModify_getElem_self, hm]
    rfl
  · intro w mid m hm hc
    refine ⟨?_, ?_, ?_, ?_, hcompiled w mid m hm hc⟩
    · simp [addSubModuleW, hm, hc]
    · intro name txt
      simp [addExpressionW, hm, guardAdd, hc]
    · intro name v
      simp [addNativeExpressionW, hm, guardAdd, hc]
    · intro name o
      simp [mapModuleW, hm, guardAdd, hc]

/-- Witness for C6 on a concrete two-module world: compiling the
submodule fails, compiling a compiled root fails, a fresh root stays
compiled after `compile`, and a compiled root rejects every mutation. -/
theorem module_compile_one_way_witness :
    (compileW ⟨[⟨none, false, [], [1]⟩, ⟨some 0, false, [], []⟩], []⟩ 1 =
      (⟨[⟨none, false, [], [1]⟩, ⟨some 0, false, [], []⟩], []⟩,
        .error "Only the root module can be compiled")) ∧
    (compileW ⟨[⟨none, true, [], []⟩], []⟩ 0 =
      (⟨[⟨none, true, [], []⟩], []⟩, .error "Module is already compiled")) ∧
    (∃ m', (compileW ⟨[⟨none, false, [], []⟩], []⟩ 0).1.mods[0]? = some m' ∧
      m'.compiled = true) ∧
    (∀ name txt, addExpressionW ⟨[⟨none, true, [], []⟩], []⟩ 0 name txt =
      .error "Cannot modify a compiled module: addExpression") := by
  refine ⟨?_, ?_, ?_, ?_⟩
  · exact module_compile_one_way.2.1 _ 1 ⟨some 0, false, [], []⟩ (by rfl)
      (by rfl) (by rfl)
  · exact module_compile_one_way.1 _ 0 ⟨none, true, [], []⟩ (by rfl) (by rfl)
  · exact (module_compile_one_way.2.2.1 _ 0 ⟨none, false, [], []⟩ (by rfl)
      (by rfl) (by rfl)).2
  · exact (module_compile_one_way.2.2.2 _ 0 ⟨none, true, [], []⟩ (by rfl)
      (by rfl)).2.1

/-- C10: within one module, `addExpression`, `addNativeExpression` and
`mapModule` all register into the single shared `names` table: a name
already present — of either kind — makes each of the three fail with the
duplicate-name error, and each successful registration puts the name into
that same table, so a name used for an expression can never also be used
for a mapped module in the same module and vice versa. -/
theorem shared_name_table_duplicates :
    (∀ w mid m name, w.mods[mid]? = some m → m.compiled = false →
      hasNameM m name = true →
      (∀ txt, addExpressionW w mid name txt =
        .error ("Expression with name " ++ name ++
          " already exists in this module")) ∧
      (∀ v, addNativeExpressionW w mid name v =
        .error ("Expression with name " ++ name ++
          " already exists in this module")) ∧
      (∀ o, mapModuleW w mid name o =
        .error ("Expression with name " ++ name ++
          " already exists in this module"))) ∧
    (∀ w mid name txt w' eid, addExpressionW w mid name txt = .ok (w', eid) →
      ∃ m', w'.mods[mid]? = some m' ∧ hasNameM m' name = true) ∧
    (∀ w mid name v w' eid, addNativeExpressionW w mid name v = .ok (w', eid) →
      ∃ m', w'.mods[mid]? = some m' ∧ hasNameM m' name = true) ∧
    (∀ w mid name o w', mapModuleW w mid name o = .ok w' →
      ∃ m', w'.mods[mid]? = some m' ∧ hasNameM m' name = true) := by
  have hdup : ∀ (m : ModuleData) fname name, m.compiled = false →
      hasNameM m name = true →
      guardAdd m fname name = .error ("Expression with name " ++ name ++
        " already exists in this module") := by
    intro m fname name hc hn
    simp [guardAdd, hc, hn]
  refine ⟨?_, ?_, ?_, ?_⟩
  · intro w mid m name hm hc hn
    refine ⟨?_, ?_, ?_⟩
    · intro txt
      simp [addExpressionW, hm, hdup m _ name hc hn]
    · intro v
      simp [addNativeExpressionW, hm, hdup m _ name hc hn]
    · intro o
      simp [mapModuleW, hm, hdup m _ name hc hn]
  · intro w mid name txt w' eid h
    cases hm : w.mods[mid]? with
    | none => simp [addExpressionW, hm] at h
    | some m =>
      simp only [addExpressionW, hm] at h
      cases hg : guardAdd m "addExpression" name with
      | error msg => simp [hg] at h
      | ok u =>
        simp only [hg, exceptOkBind] at h
        cases hp : parseExpression txt with
        | error msg => simp [hp] at h
        | ok ast =>
          simp only [hp, exceptOkBind] at h
          cases h
          refine ⟨{ m with names := m.names ++
            [(name, NameType.VALUE, EntryVal.expr w.exprs.length)] }, ?_, ?_⟩
          · simp only [updateModW]
            rw [listModify_getElem_self, hm]
            rfl
          · simp [hasNameM]
  · intro w mid name v w' eid h
    cases hm : w.mods[mid]? with
    | none => simp [addNativeExpressionW, hm] at h
    | some m =>
      simp only [addNativeExpressionW, hm] at h
      cases hg : guardAdd m "addNativeExpression" name with
      | error msg => simp [hg] at h
      | ok u =>
        simp only [hg, exceptOkBind] at h
        cases h
        refine ⟨{ m with names := m.names ++
          [(name, NameType.VALUE, EntryVal.expr w.exprs.length)] }, ?_, ?_⟩
        · simp only [updateModW]
          rw [listModify_getElem_self, hm]
          rfl
        · simp [hasNameM]
  · intro w mid name o w' h
    cases hm : w.mods[mid]? with
    | none => simp [mapModuleW, hm] at h
    | some m =>
      simp only [mapModuleW, hm] at h
      cases hg : guardAdd m "mapModule" name with
      | error msg => simp [hg] at h
      | ok u =>
        simp only [hg, exceptOkBind] at h
        by_cases hca : hasCommonAncestorW w mid o
        · simp only [hca, if_pos] at h
          cases h
          refine ⟨{ m with names := m.names ++
            [(name, NameType.OBJECT, EntryVal.module o)] }, ?_, ?_⟩
          · simp only [updateModW]
            rw [listModify_getElem_self, hm]
            rfl
          · simp [hasNameM]
        · simp [hca] at h

/-- Witness for C10: in a root module already holding `x` as an
expression and `q` as a mapped module, all three registrations of `x`
(and of `q`) fail with the duplicate error. -/
theorem shared_name_table_duplicates_witness :
    ∀ name, hasNameM ⟨none, false,
        [("x", NameType.VALUE, .expr 0), ("q", NameType.OBJECT, .module 0)],
        []⟩ name = true →
      addExpressionW ⟨[⟨none, false,
        [("x", NameType.VALUE, .expr 0), ("q", NameType.OBJECT, .module 0)],
        []⟩], [mkUnbound (.num 1)]⟩ 0 name ("1".toList) =
        .error ("Expression with name " ++ name ++
          " already exists in this module") := by
  intro name hn
  exact (shared_name_table_duplicates.1
    ⟨[⟨none, false,
      [("x", NameType.VALUE, .expr 0), ("q", NameType.OBJECT, .module 0)],
      []⟩], [mkUnbound (.num 1)]⟩ 0
    ⟨none, false,
      [("x", NameType.VALUE, .expr 0), ("q", NameType.OBJECT, .module 0)],
      []⟩ name rfl rfl hn).1 ("1".toList)

/-- C7: `mapModule` succeeds only when the two modules pass the
common-ancestor test computed by walking both parent chains (each chain
starts at the module itself); without a common ancestor it fails; with
one (and a fresh name on an open module) it succeeds, and afterwards a
VALUE expression `ename` of the mapped module is reachable from the
mapping module as the dotted name `name.ename`. -/
theorem mapModule_requires_common_ancestor :
    (∀ w mid name o w', mapModuleW w mid name o = .ok w' →
      hasCommonAncestorW w mid o = true) ∧
    (∀ w mid m name o, w.mods[mid]? = some m → m.compiled = false →
      hasNameM m name = false → hasCommonAncestorW w mid o = false →
      mapModuleW w mid name o =
        .error "Mapped module must share a common ancestor with this module") ∧
    (∀ w mid m name o, w.mods[mid]? = some m → m.compiled = false →
      hasNameM m name = false → hasCommonAncestorW w mid o = true →
      ∃ w', mapModuleW w mid name o = .ok w' ∧
        (∀ om ename eid fuel, o ≠ mid → name ≠ "" → ename ≠ "" →
          w.mods[o]? = some om →
          findNameM om ename = some (NameType.VALUE, .expr eid) →
          lookupNameM w' (fuel + 2) mid [name, ename] NameType.VALUE =
            .ok eid)) := by
  refine ⟨?_, ?_, ?_⟩
  · intro w mid name o w' h
    cases hm : w.mods[mid]? with
    | none => simp [mapModuleW, hm] at h
    | some m =>
      simp only [mapModuleW, hm] at h
      cases hg : guardAdd m "mapModule" name with
      | error msg => simp [hg] at h
      | ok u =>
        simp only [hg, exceptOkBind] at h
        by_cases hca : hasCommonAncestorW w mid o
        · exact hca
        · simp [hca] at h
  · intro w mid m name o hm hc hd hca
    simp [mapModuleW, hm, guardAdd, hc, hd, hca]
  · intro w mid m name o hm hc hd hca
    refine ⟨updateModW w mid (fun md => { md with names := md.names ++
      [(name, NameType.OBJECT, EntryVal.module o)] }), ?_, ?_⟩
    · simp [mapModuleW, hm, guardAdd, hc, hd, hca]
    · intro om ename eid fuel hne hnm hen ho hfind
      have hm' : (updateModW w mid (fun md => { md with names := md.names ++
          [(name, NameType.OBJECT, EntryVal.module o)] })).mods[mid]? =
          some { m with names := m.names ++
            [(name, NameType.OBJECT, EntryVal.module o)] } := by
        simp only [updateModW]
        rw [listModify_getElem_self, hm]
        rfl
      have ho' : (updateModW w mid (fun md => { md with names := md.names ++
          [(name, NameType.OBJECT, EntryVal.module o)] })).mods[o]? =
          some om := by
        simp only [updateModW]
        rw [listModify_getElem_other _ _ _ _ (fun hh => hne hh.symm)]
        exact ho
      have hnone : m.names.find? (fun p => p.1 = name) = none := by
        rw [List.find?_eq_none]
        intro x hx
        simp only [hasNameM, List.any_eq_false] at hd
        simpa using hd x hx
      have hfindM : findNameM { m with names := m.names ++
          [(name, NameType.OBJECT, EntryVal.module o)] } name =
          some (NameType.OBJECT, EntryVal.module o) := by
        simp [findNameM, List.find?_append, hnone]
      simp only [lookupNameM, hm', if_neg hnm, hfindM]
      simp only [List.isEmpty_cons, Bool.false_eq_true, if_false]
      simp only [lookupNameM, ho', if_neg hen, hfind]
      rfl

/-- Witness for C7: two unrelated roots cannot be mapped; two submodules
sharing a root can, and afterwards `other.v` resolves from the mapping
side to the mapped module's expression. -/
theorem mapModule_requires_common_ancestor_witness :
    (mapModuleW ⟨[⟨none, false, [], []⟩, ⟨none, false, [], []⟩], []⟩ 0 "f" 1 =
      .error "Mapped module must share a common ancestor with this module") ∧
    (∃ w', mapModuleW ⟨[⟨none, false, [], [1, 2]⟩,
        ⟨some 0, false, [("v", NameType.VALUE, .expr 0)], []⟩,
        ⟨some 0, false, [], []⟩], [mkUnbound (.num 1)]⟩ 2 "other" 1 =
        .ok w' ∧
      lookupNameM w' 5 2 ["other", "v"] NameType.VALUE = .ok 0) := by
  constructor
  · exact mapModule_requires_common_ancestor.2.1 _ 0 ⟨none, false, [], []⟩
      "f" 1 rfl rfl rfl (by decide)
  · obtain ⟨w', hw, hl⟩ := mapModule_requires_common_ancestor.2.2
      ⟨[⟨none, false, [], [1, 2]⟩,
        ⟨some 0, false, [("v", NameType.VALUE, .expr 0)], []⟩,
        ⟨some 0, false, [], []⟩], [mkUnbound (.num 1)]⟩ 2
      ⟨some 0, false, [], []⟩ "other" 1 rfl rfl rfl (by decide)
    refine ⟨w', hw, ?_⟩
    exact hl ⟨some 0, false, [("v", NameType.VALUE, .expr 0)], []⟩ "v" 0 3
      (by decide) (by decide) (by decide) rfl rfl

/-- C4: name lookup follows exactly the two-table algorithm, in both
implementations.  `DefaultBindingContext.lookupRecursive`: on the final
segment a local symbol-table hit (under the requested type) wins —
whatever the parent holds, so a child definition shadows the parent's —
a miss delegates the single-part lookup to the parent when one exists
and otherwise fails with the unresolved-name error; on inner segments a
local subcontext hit delegates the shortened list into the subcontext, a
miss delegates the full unshortened list to the parent when one exists
and otherwise fails with the not-an-object error.  `Module.lookupName`
behaves the same way for VALUE lookups over its single name table, OBJECT
entries playing the role of the subcontext table. -/
theorem binding_context_lookup_algorithm :
    (∀ cw fuel cid c head ty prov, cw.ctxs[cid]? = some c → head ≠ "" →
      symLookup c head ty = some prov →
      lookupNameC cw (fuel + 1) cid [head] ty = .ok prov) ∧
    (∀ cw fuel cid c head ty p, cw.ctxs[cid]? = some c → head ≠ "" →
      symLookup c head ty = none → c.parent = some p →
      lookupNameC cw (fuel + 1) cid [head] ty =
        lookupNameC cw fuel p [head] ty) ∧
    (∀ cw fuel cid c head ty, cw.ctxs[cid]? = some c → head ≠ "" →
      symLookup c head ty = none → c.parent = none →
      lookupNameC cw (fuel + 1) cid [head] ty =
        .error ("Unresolved name: " ++ head)) ∧
    (∀ cw fuel cid c head rest ty sub, cw.ctxs[cid]? = some c → head ≠ "" →
      rest ≠ [] → subLookup c head = some sub →
      lookupNameC cw (fuel + 1) cid (head :: rest) ty =
        lookupNameC cw fuel sub rest ty) ∧
    (∀ cw fuel cid c head rest ty p, cw.ctxs[cid]? = some c → head ≠ "" →
      rest ≠ [] → subLookup c head = none → c.parent = some p →
      lookupNameC cw (fuel + 1) cid (head :: rest) ty =
        lookupNameC cw fuel p (head :: rest) ty) ∧
    (∀ cw fuel cid c head rest ty, cw.ctxs[cid]? = some c → head ≠ "" →
      rest ≠ [] → subLookup c head = none → c.parent = none →
      lookupNameC cw (fuel + 1) cid (head :: rest) ty =
        .error (head ++ " is not an object")) ∧
    (∀ w fuel mid m head eid, w.mods[mid]? = some m → head ≠ "" →
      findNameM m head = some (NameType.VALUE, .expr eid) →
      lookupNameM w (fuel + 1) mid [head] NameType.VALUE = .ok eid) ∧
    (∀ w fuel mid m head, w.mods[mid]? = some m → head ≠ "" →
      (∀ tv, findNameM m head = some tv → tv.1 ≠ NameType.VALUE) →
      lookupNameM w (fuel + 1) mid [head] NameType.VALUE =
        (match m.parent with
        | some p => lookupNameM w fuel p [head] NameType.VALUE
        | none => .error ("Unresolved name: " ++ head))) ∧
    (∀ w fuel mid m head rest mm, w.mods[mid]? = some m → head ≠ "" →
      rest ≠ [] → findNameM m head = some (NameType.OBJECT, .module mm) →
      lookupNameM w (fuel + 1) mid (head :: rest) NameType.VALUE =
        lookupNameM w fuel mm rest NameType.VALUE) ∧
    (∀ w fuel mid m head rest, w.mods[mid]? = some m → head ≠ "" →
      rest ≠ [] →
      (∀ tv, findNameM m head = some tv → tv.1 ≠ NameType.OBJECT) →
      lookupNameM w (fuel + 1) mid (head :: rest) NameType.VALUE =
        (match m.parent with
        | some p => lookupNameM w fuel p (head :: rest) NameType.VALUE
        | none => .error (head ++ " is not an object"))) := by
  refine ⟨?_, ?_, ?_, ?_, ?_, ?_, ?_, ?_, ?_, ?_⟩
  · intro cw fuel cid c head ty prov hc hne hs
    simp [lookupNameC, hc, if_neg hne, hs]
  · intro cw fuel cid c head ty p hc hne hs hp
    simp [lookupNameC, hc, if_neg hne, hs, hp]
  · intro cw fuel cid c head ty hc hne hs hp
    simp [lookupNameC, hc, if_neg hne, hs, hp]
  · intro cw fuel cid c head rest ty sub hc hne hr hs
    cases rest with
    | nil => exact absurd rfl hr
    | cons x xs => simp [lookupNameC, hc, if_neg hne, hs]
  · intro cw fuel cid c head rest ty p hc hne hr hs hp
    cases rest with
    | nil => exact absurd rfl hr
    | cons x xs => simp [lookupNameC, hc, if_neg hne, hs, hp]
  · intro cw fuel cid c head rest ty hc hne hr hs hp
    cases rest with
    | nil => exact absurd rfl hr
    | cons x xs => simp [lookupNameC, hc, if_neg hne, hs, hp]
  · intro w fuel mid m head eid hm hne hf
    simp [lookupNameM, hm, if_neg hne, hf]
  · intro w fuel mid m head hm hne hf
    cases hfm : findNameM m head with
    | none => simp [lookupNameM, hm, if_neg hne, hfm]
    | some tv =>
      obtain ⟨t, v⟩ := tv
      have ht : t ≠ NameType.VALUE := hf (t, v) hfm
      simp [lookupNameM, hm, if_neg hne, hfm, ht]
  · intro w fuel mid m head rest mm hm hne hr hf
    cases rest with
    | nil => exact absurd rfl hr
    | cons x xs => simp [lookupNameM, hm, if_neg hne, hf]
  · intro w fuel mid m head rest hm hne hr hf
    cases rest with
    | nil => exact absurd rfl hr
    | cons x xs =>
      cases hfm : findNameM m head with
      | none => simp [lookupNameM, hm, if_neg hne, hfm]
      | some tv =>
        obtain ⟨t, v⟩ := tv
        have ht : t ≠ NameType.OBJECT := hf (t, v) hfm
        cases t with
        | OBJECT => exact absurd rfl ht
        | VALUE =>
          cases v <;> simp [lookupNameM, hm, if_neg hne, hfm]
        | ARRAY =>
          cases v <;> simp [lookupNameM, hm, if_neg hne, hfm]
        | FUNCTION =>
          cases v <;> simp [lookupNameM, hm, if_neg hne, hfm]

/-- Witness for C4 on a two-context world: the child's `a` shadows the
parent's, and the child inherits the parent's `b`. -/
theorem binding_context_lookup_algorithm_witness :
    lookupNameC ⟨[⟨none, [("a", [(NameType.VALUE, 10)]),
        ("b", [(NameType.VALUE, 30)])], []⟩,
      ⟨some 0, [("a", [(NameType.VALUE, 20)])], []⟩]⟩ 2 1 ["a"]
        NameType.VALUE = .ok 20 ∧
    lookupNameC ⟨[⟨none, [("a", [(NameType.VALUE, 10)]),
        ("b", [(NameType.VALUE, 30)])], []⟩,
      ⟨some 0, [("a", [(NameType.VALUE, 20)])], []⟩]⟩ 2 1 ["b"]
        NameType.VALUE = .ok 30 := by
  constructor
  · exact binding_context_lookup_algorithm.1 _ 1 1
      ⟨some 0, [("a", [(NameType.VALUE, 20)])], []⟩ "a" NameType.VALUE 20
      rfl (by decide) (by decide)
  · have h2 := binding_context_lookup_algorithm.2.1
      ⟨[⟨none, [("a", [(NameType.VALUE, 10)]), ("b", [(NameType.VALUE, 30)])],
        []⟩, ⟨some 0, [("a", [(NameType.VALUE, 20)])], []⟩]⟩ 1 1
      ⟨some 0, [("a", [(NameType.VALUE, 20)])], []⟩ "b" NameType.VALUE 0
      rfl (by decide) (by decide) rfl
    have h1 := binding_context_lookup_algorithm.1
      ⟨[⟨none, [("a", [(NameType.VALUE, 10)]), ("b", [(NameType.VALUE, 30)])],
        []⟩, ⟨some 0, [("a", [(NameType.VALUE, 20)])], []⟩]⟩ 0 0
      ⟨none, [("a", [(NameType.VALUE, 10)]), ("b", [(NameType.VALUE, 30)])],
        []⟩ "b" NameType.VALUE 30 rfl (by decide) (by decide)
    exact h2.trans h1

/-- `getD` of `set` at the written (in-range) index. -/
theorem getD_set_self :
    ∀ (l : List Bool) (i : Nat) (a : Bool), i < l.length →
      (l.set i a).getD i false = a := by
  intro l
  induction l with
  | nil => intro i a h; simp at h
  | cons x xs ih =>
    intro i a h
    cases i with
    | zero => rfl
    | succ n => exact ih n a (by simpa using h)

/-- `getD` of `set` at another index. -/
theorem getD_set_other :
    ∀ (l : List Bool) (i j : Nat) (a : Bool), i ≠ j →
      (l.set i a).getD j false = l.getD j false := by
  intro l
  induction l with
  | nil => intro i j a h; cases i <;> rfl
  | cons x xs ih =>
    intro i j a h
    cases i with
    | zero =>
      cases j with
      | zero => exact absurd rfl h
      | succ m => rfl
    | succ n =>
      cases j with
      | zero => rfl
      | succ m => exact ih n m a (by omega)

/-- Pointwise-fewer unresolved entries never lengthens the unresolved
filter. -/
theorem filter_unres_mono (s s' : List Bool) :
    ∀ (ids : List Nat),
      (∀ i ∈ ids, s.getD i false = true → s'.getD i false = true) →
      (ids.filter (fun i => !s'.getD i false)).length ≤
        (ids.filter (fun i => !s.getD i false)).length := by
  intro ids
  induction ids with
  | nil => intro _; simp
  | cons i is ih =>
    intro h
    have hrec := ih (fun j hj => h j (by simp [hj]))
    simp only [List.filter_cons]
    cases hsi : s.getD i false with
    | true =>
      have hsi' := h i (by simp) hsi
      simp only [hsi, hsi', Bool.not_true, if_neg, Bool.false_eq_true,
        if_false]
      exact hrec
    | false =>
      cases hsi' : s'.getD i false with
      | true =>
        simp only [hsi, hsi', Bool.not_true, Bool.not_false, if_pos,
          Bool.false_eq_true, if_false, List.length_cons]
        omega
      | false =>
        simp only [hsi, hsi', Bool.not_false, if_pos, List.length_cons]
        omega
/-- A genuine new resolution strictly shrinks the unresolved filter. -/
theorem filter_unres_strict (s s' : List Bool) :
    ∀ (ids : List Nat),
      (∀ i ∈ ids, s.getD i false = true → s'.getD i false = true) →
      ∀ i0 ∈ ids, s.getD i0 false = false → s'.getD i0 false = true →
      (ids.filter (fun i => !s'.getD i false)).length <
        (ids.filter (fun i => !s.getD i false)).length := by
  intro ids
  induction ids with
  | nil => intro _ i0 h0; simp at h0
  | cons i is ih =>
    intro h i0 h0 hs0 hs0'
    have hmono := filter_unres_mono s s' is (fun j hj hr => h j (by simp [hj]) hr)
    simp only [List.filter_cons]
    rcases List.mem_cons.mp h0 with h0 | h0
    · subst h0
      simp only [hs0, hs0', Bool.not_true, Bool.not_false, if_pos,
        Bool.false_eq_true, if_false, List.length_cons]
      omega
    · have hrec := ih (fun j hj hr => h j (by simp [hj]) hr) i0 h0 hs0 hs0'
      cases hsi : s.getD i false with
      | true =>
        have hsi' := h i (by simp) hsi
        simp only [hsi, hsi', Bool.not_true, Bool.false_eq_true, if_false]
        exact hrec
      | false =>
        cases hsi' : s'.getD i false with
        | true =>
          simp only [hsi, hsi', Bool.not_true, Bool.not_false, if_pos,
            Bool.false_eq_true, if_false, List.length_cons]
          omega
        | false =>
          simp only [hsi, hsi', Bool.not_false, if_pos, List.length_cons]
          omega

/-- Scan step on an already-resolved expression: skip. -/
theorem resolvePass_step_resolved (deps : List (List Nat)) (i : Nat)
    (is : List Nat) (s : List Bool) (out : List Nat) (prog : Bool)
    (cnt : Nat) (hi : s.getD i false = true) :
    resolvePass (flagOps deps) (i :: is) s out prog cnt =
      resolvePass (flagOps deps) is s out prog cnt := by
  simp only [resolvePass, flagOps, hi, eq_self_iff_true, if_true]

/-- Scan step on an unresolved expression with an unresolved dependency:
count it and move on. -/
theorem resolvePass_step_stuck (deps : List (List Nat)) (i : Nat)
    (is : List Nat) (s : List Bool) (out : List Nat) (prog : Bool)
    (cnt : Nat) (hi : s.getD i false = false)
    (ht : (deps.getD i []).any (fun j => !s.getD j false) = true) :
    resolvePass (flagOps deps) (i :: is) s out prog cnt =
      resolvePass (flagOps deps) is s out prog (cnt + 1) := by
  simp only [resolvePass, flagOps, hi, ht, Bool.false_eq_true, if_false]

/-- Scan step on an eligible expression: resolve it, append it to the
output, and mark progress. -/
theorem resolvePass_step_ready (deps : List (List Nat)) (i : Nat)
    (is : List Nat) (s : List Bool) (out : List Nat) (prog : Bool)
    (cnt : Nat) (hi : s.getD i false = false)
    (ht : (deps.getD i []).any (fun j => !s.getD j false) = false) :
    resolvePass (flagOps deps) (i :: is) s out prog cnt =
      resolvePass (flagOps deps) is (s.set i true) (out ++ [i]) true cnt := by
  simp only [resolvePass, flagOps, hi, ht, Bool.false_eq_true, if_false]

/-- Everything one inner pass of the resolver guarantees on an abstract
batch whose scan list has no duplicates: the pass never throws, flags
only grow, untouched indices keep their flags, every expression eligible
at pass start gets resolved, the final count is zero exactly when
everything scanned is resolved, no progress means no change, progress
means some flag flipped, every resolved scan entry is recorded in the
output, and the output only grows. -/
theorem resolvePass_flags (deps : List (List Nat)) :
    ∀ (ids : List Nat), ids.Nodup →
    ∀ (s : List Bool) (out : List Nat) (prog : Bool) (cnt : Nat),
    (∀ i ∈ ids, i < s.length) →
    ∃ s' out' prog' cnt',
      resolvePass (flagOps deps) ids s out prog cnt =
        (s', .ok (out', prog', cnt')) ∧
      s'.length = s.length ∧
      (∀ j, s.getD j false = true → s'.getD j false = true) ∧
      (∀ j, j ∉ ids → s'.getD j false = s.getD j false) ∧
      (∀ i ∈ ids, s.getD i false = false →
        (∀ j ∈ deps.getD i [], s.getD j false = true) →
        s'.getD i false = true) ∧
      (cnt' = 0 ↔ cnt = 0 ∧ ∀ i ∈ ids, s'.getD i false = true) ∧
      (prog' = false → prog = false ∧ s' = s ∧ out' = out) ∧
      (prog' = true → prog = true ∨
        ∃ i ∈ ids, s.getD i false = false ∧ s'.getD i false = true) ∧
      (∀ i ∈ ids, s'.getD i false = true →
        s.getD i false = true ∨ i ∈ out') ∧
      (∀ x ∈ out, x ∈ out') ∧
      (prog = true → prog' = true) := by
  intro ids
  induction ids with
  | nil =>
    intro _ s out prog cnt _
    refine ⟨s, out, prog, cnt, rfl, rfl, fun j h => h, fun j _ => rfl,
      by simp, ?_, ?_, ?_, by simp, fun x hx => hx, fun h => h⟩
    · constructor
      · intro h; exact ⟨h, by simp⟩
      · rintro ⟨h, _⟩; exact h
    · intro h; exact ⟨h, rfl, rfl⟩
    · intro h; exact Or.inl h
  | cons i is ih =>
    intro hnodup s out prog cnt hlen
    rw [List.nodup_cons] at hnodup
    obtain ⟨hnotmem, hnd⟩ := hnodup
    have hleni : i < s.length := hlen i (by simp)
    by_cases hi : s.getD i false = true
    · -- already resolved: skipped
      obtain ⟨s', out', prog', cnt', heq, hlen', hmono, hframe, hready,
        hcnt, hprogF, hprogT, hcov, hext, hpm⟩ :=
        ih hnd s out prog cnt (fun j hj => hlen j (by simp [hj]))
      refine ⟨s', out', prog', cnt',
        (resolvePass_step_resolved deps i is s out prog cnt hi).trans heq,
        hlen', hmono, ?_, ?_, ?_, hprogF, ?_, ?_, hext, hpm⟩
      · intro j hj
        exact hframe j (fun hm => hj (by simp [hm]))
      · intro i' hi' hf hd
        rcases List.mem_cons.mp hi' with h | h
        · subst h; rw [hi] at hf; cases hf
        · exact hready i' h hf hd
      · rw [hcnt]
        constructor
        · rintro ⟨h0, hall⟩
          refine ⟨h0, ?_⟩
          intro i' hi'
          rcases List.mem_cons.mp hi' with h | h
          · subst h; exact hmono _ hi
          · exact hall i' h
        · rintro ⟨h0, hall⟩
          exact ⟨h0, fun i' h => hall i' (by simp [h])⟩
      · intro h
        rcases hprogT h with h | ⟨i', hi', hf, hf'⟩
        · exact Or.inl h
        · exact Or.inr ⟨i', by simp [hi'], hf, hf'⟩
      · intro i' hi' hf
        rcases List.mem_cons.mp hi' with h | h
        · subst h; exact Or.inl hi
        · exact hcov i' h hf
    · have hi0 : s.getD i false = false := by
        cases h : s.getD i false
        · rfl
        · exact absurd h hi
      by_cases ht : (deps.getD i []).any (fun j => !s.getD j false) = true
      · -- unresolved with unresolved dependencies: counted
        obtain ⟨s', out', prog', cnt', heq, hlen', hmono, hframe, hready,
          hcnt, hprogF, hprogT, hcov, hext, hpm⟩ :=
          ih hnd s out prog (cnt + 1) (fun j hj => hlen j (by simp [hj]))
        refine ⟨s', out', prog', cnt',
          (resolvePass_step_stuck deps i is s out prog cnt hi0 ht).trans heq,
          hlen', hmono, ?_, ?_, ?_, hprogF, ?_, ?_, hext, hpm⟩
        · intro j hj
          exact hframe j (fun hm => hj (by simp [hm]))
        · intro i' hi' hf hd
          rcases List.mem_cons.mp hi' with h | h
          · subst h
            rw [List.any_eq_true] at ht
            obtain ⟨j, hj, hjval⟩ := ht
            rw [Bool.not_eq_true'] at hjval
            rw [hd j hj] at hjval
            cases hjval
          · exact hready i' h hf hd
        · constructor
          · intro h
            obtain ⟨h1, _⟩ := hcnt.mp h
            cases h1
          · rintro ⟨h0, hall⟩
            have hfr : s'.getD i false = s.getD i false := hframe i hnotmem
            have := hall i (by simp)
            rw [hfr, hi0] at this
            cases this
        · intro h
          rcases hprogT h with h | ⟨i', hi', hf, hf'⟩
          · exact Or.inl h
          · exact Or.inr ⟨i', by simp [hi'], hf, hf'⟩
        · intro i' hi' hf
          rcases List.mem_cons.mp hi' with h | h
          · subst h
            rw [hframe _ hnotmem, hi0] at hf
            cases hf
          · exact hcov i' h hf
      · -- eligible: resolved, appended, progress
        have ht0 : (deps.getD i []).any (fun j => !s.getD j false) = false := by
          cases h : (deps.getD i []).any (fun j => !s.getD j false)
          · rfl
          · exact absurd h ht
        have hlen1 : ∀ j ∈ is, j < (s.set i true).length := by
          intro j hj
          rw [List.length_set]
          exact hlen j (by simp [hj])
        obtain ⟨s', out', prog', cnt', heq, hlen', hmono, hframe, hready,
          hcnt, hprogF, hprogT, hcov, hext, hpm⟩ :=
          ih hnd (s.set i true) (out ++ [i]) true cnt hlen1
        have hset : (s.set i true).getD i false = true :=
          getD_set_self s i true hleni
        have hmono1 : ∀ j, s.getD j false = true →
            (s.set i true).getD j false = true := by
          intro j hj
          by_cases hij : i = j
          · subst hij; exact hset
          · rw [getD_set_other s i j true hij]; exact hj
        have hsi' : s'.getD i false = true := hmono i hset
        refine ⟨s', out', prog', cnt',
          (resolvePass_step_ready deps i is s out prog cnt hi0 ht0).trans heq,
          hlen'.trans (List.length_set s i true), ?_, ?_, ?_, ?_, ?_, ?_,
          ?_, ?_, fun _ => hpm rfl⟩
        · intro j hj
          exact hmono j (hmono1 j hj)
        · intro j hj
          have hji : ¬ j = i := fun h => hj (by simp [h])
          rw [hframe j (fun hm => hj (by simp [hm]))]
          exact getD_set_other s i j true (fun h => hji h.symm)
        · intro i' hi' hf hd
          rcases List.mem_cons.mp hi' with h | h
          · subst h; exact hsi'
          · have hne : ¬ i = i' := fun hh => hnotmem (hh ▸ h)
            refine hready i' h ?_ ?_
            · rw [getD_set_other s i i' true hne]; exact hf
            · intro j hj
              exact hmono1 j (hd j hj)
        · rw [hcnt]
          constructor
          · rintro ⟨h0, hall⟩
            exact ⟨h0, fun i' hi' => by
              rcases List.mem_cons.mp hi' with h | h
              · subst h; exact hsi'
              · exact hall i' h⟩
          · rintro ⟨h0, hall⟩
            exact ⟨h0, fun i' h => hall i' (by simp [h])⟩
        · intro h
          obtain ⟨hcontra, _⟩ := hprogF h
          cases hcontra
        · intro _
          exact Or.inr ⟨i, by simp, hi0, hsi'⟩
        · intro i' hi' hf
          rcases List.mem_cons.mp hi' with h | h
          · subst h
            exact Or.inr (hext i' (by simp))
          · have hne : ¬ i = i' := fun hh => hnotmem (hh ▸ h)
            rcases hcov i' h hf with hc | hc
            · rw [getD_set_other s i i' true hne] at hc
              exact Or.inl hc
            · exact Or.inr hc
        · intro x hx
          exact hext x (by simp [hx])

/-- Under an acyclic dependency measure, some unresolved expression is
always eligible (take an unresolved one of minimal depth). -/
theorem exists_ready (deps : List (List Nat)) (d : Nat → Nat)
    (ids : List Nat)
    (hclosed : ∀ i ∈ ids, ∀ j ∈ deps.getD i [], j ∈ ids)
    (hacyc : ∀ i ∈ ids, ∀ j ∈ deps.getD i [], d j < d i)
    (s : List Bool) (i1 : Nat) (h1 : i1 ∈ ids)
    (hu : s.getD i1 false = false) :
    ∃ i0 ∈ ids, s.getD i0 false = false ∧
      ∀ j ∈ deps.getD i0 [], s.getD j false = true := by
  classical
  have hne : (ids.filter (fun i => !s.getD i false)).toFinset.Nonempty := by
    refine ⟨i1, ?_⟩
    rw [List.mem_toFinset, List.mem_filter]
    exact ⟨h1, by rw [hu]; rfl⟩
  obtain ⟨i0, hi0, hmin⟩ := Finset.exists_min_image _ d hne
  rw [List.mem_toFinset, List.mem_filter] at hi0
  obtain ⟨hi0mem, hi0un⟩ := hi0
  rw [Bool.not_eq_true'] at hi0un
  refine ⟨i0, hi0mem, hi0un, ?_⟩
  intro j hj
  by_contra hjr
  rw [Bool.not_eq_true] at hjr
  have hjmem : j ∈ ids := hclosed i0 hi0mem j hj
  have : d i0 ≤ d j := by
    refine hmin j ?_
    rw [List.mem_toFinset, List.mem_filter]
    exact ⟨hjmem, by rw [hjr]; rfl⟩
  exact absurd (hacyc i0 hi0mem j hj) (by omega)

/-- A pass never resolves any member of a dependency cycle: each member
keeps an unresolved dependency inside the cycle throughout the scan. -/
theorem resolvePass_cycle (deps : List (List Nat)) (C : List Nat)
    (hCdep : ∀ i ∈ C, ∃ j ∈ deps.getD i [], j ∈ C) :
    ∀ (ids : List Nat) (s : List Bool) (out : List Nat) (prog : Bool)
      (cnt : Nat), (∀ i ∈ C, s.getD i false = false) →
    ∃ s' out' prog' cnt',
      resolvePass (flagOps deps) ids s out prog cnt =
        (s', .ok (out', prog', cnt')) ∧
      (∀ i ∈ C, s'.getD i false = false) := by
  intro ids
  induction ids with
  | nil =>
    intro s out prog cnt hC
    exact ⟨s, out, prog, cnt, rfl, hC⟩
  | cons i is ih =>
    intro s out prog cnt hC
    by_cases hi : s.getD i false = true
    · obtain ⟨s', out', prog', cnt', heq, hC'⟩ := ih s out prog cnt hC
      exact ⟨s', out', prog', cnt',
        (resolvePass_step_resolved deps i is s out prog cnt hi).trans heq, hC'⟩
    · have hi0 : s.getD i false = false := by
        cases h : s.getD i false
        · rfl
        · exact absurd h hi
      have hinotC : i ∉ C ∨
          (deps.getD i []).any (fun j => !s.getD j false) = true := by
        by_cases hiC : i ∈ C
        · obtain ⟨j, hj, hjC⟩ := hCdep i hiC
          refine Or.inr ?_
          rw [List.any_eq_true]
          exact ⟨j, hj, by rw [hC j hjC]; rfl⟩
        · exact Or.inl hiC
      by_cases ht : (deps.getD i []).any (fun j => !s.getD j false) = true
      · obtain ⟨s', out', prog', cnt', heq, hC'⟩ := ih s out prog (cnt + 1) hC
        exact ⟨s', out', prog', cnt',
          (resolvePass_step_stuck deps i is s out prog cnt hi0 ht).trans heq,
          hC'⟩
      · have ht0 : (deps.getD i []).any (fun j => !s.getD j false) = false := by
          cases h : (deps.getD i []).any (fun j => !s.getD j false)
          · rfl
          · exact absurd h ht
        have hiC : i ∉ C := by
          rcases hinotC with h | h
          · exact h
          · exact absurd h ht
        have hC1 : ∀ c ∈ C, (s.set i true).getD c false = false := by
          intro c hc
          rw [getD_set_other s i c true (fun h => hiC (h ▸ hc))]
          exact hC c hc
        obtain ⟨s', out', prog', cnt', heq, hC'⟩ :=
          ih (s.set i true) (out ++ [i]) true cnt hC1
        exact ⟨s', out', prog', cnt',
          (resolvePass_step_ready deps i is s out prog cnt hi0 ht0).trans heq,
          hC'⟩

/-- Resolver loop on an acyclic batch: with fuel covering the unresolved
count it completes without error, every scanned expression ends up in the
output, and the number of passes exceeds neither the fuel nor the depth
bound `D`. -/
theorem resolveLoop_acyclic (deps : List (List Nat)) (d : Nat → Nat)
    (ids : List Nat) (hnd : ids.Nodup)
    (hclosed : ∀ i ∈ ids, ∀ j ∈ deps.getD i [], j ∈ ids)
    (hacyc : ∀ i ∈ ids, ∀ j ∈ deps.getD i [], d j < d i)
    (D : Nat) (hD : ∀ i ∈ ids, d i < D) :
    ∀ (fuel : Nat) (s : List Bool) (out : List Nat) (passes j0 : Nat),
      (∀ i ∈ ids, i < s.length) →
      ((ids.filter (fun i => !s.getD i false)).length ≤ fuel) →
      (∀ i ∈ ids, s.getD i false = true → i ∈ out) →
      (∀ i ∈ ids, d i < j0 → s.getD i false = true) →
      ∃ s' out' passes',
        resolveLoop (flagOps deps) ids fuel s out passes =
          (s', .ok (out', passes')) ∧
        (∀ i ∈ ids, i ∈ out') ∧
        passes' ≤ passes + fuel ∧
        (j0 < D → passes' ≤ passes + (D - j0)) := by
  intro fuel
  induction fuel with
  | zero =>
    intro s out passes j0 hlen hcount hout hpre
    refine ⟨s, out, passes, rfl, ?_, le_refl _, fun _ => by omega⟩
    intro i hi
    refine hout i hi ?_
    have hnil : ids.filter (fun i => !s.getD i false) = [] :=
      List.length_eq_zero.mp (Nat.le_zero.mp hcount)
    by_contra hun
    rw [Bool.not_eq_true] at hun
    have : i ∈ ids.filter (fun i => !s.getD i false) := by
      rw [List.mem_filter]
      exact ⟨hi, by rw [hun]; rfl⟩
    rw [hnil] at this
    cases this
  | succ fuel ih =>
    intro s out passes j0 hlen hcount hout hpre
    obtain ⟨s1, out1, prog1, cnt1, heq, hlen1, hmono, hframe, hready,
      hcnt, hprogF, hprogT, hcov, hext, hpm⟩ :=
      resolvePass_flags deps ids hnd s out false 0 hlen
    have hout1 : ∀ i ∈ ids, s1.getD i false = true → i ∈ out1 := by
      intro i hi hr
      rcases hcov i hi hr with h | h
      · exact hext i (hout i hi h)
      · exact h
    by_cases hc : cnt1 = 0
    · -- all scanned expressions resolved: break
      obtain ⟨_, hall⟩ := hcnt.mp hc
      refine ⟨s1, out1, passes + 1, ?_, ?_, by omega, fun h => by omega⟩
      · simp only [resolveLoop, heq, hc, if_pos]
      · intro i hi
        exact hout1 i hi (hall i hi)
    · cases hp1 : prog1 with
      | false =>
        -- a full pass without progress while work remains cannot happen
        -- on an acyclic batch
        exfalso
        obtain ⟨_, hseq, _⟩ := hprogF hp1
        have hun : ∃ i ∈ ids, s.getD i false = false := by
          by_contra hall
          push_neg at hall
          refine hc (hcnt.mpr ⟨rfl, ?_⟩)
          intro i hi
          rw [hseq]
          cases h : s.getD i false
          · exact absurd h (hall i hi)
          · rfl
        obtain ⟨i1, hi1, hi1u⟩ := hun
        obtain ⟨i0, hi0, hi0u, hi0r⟩ :=
          exists_ready deps d ids hclosed hacyc s i1 hi1 hi1u
        have h2 := hready i0 hi0 hi0u hi0r
        rw [hseq] at h2
        rw [h2] at hi0u
        cases hi0u
      | true =>
        have hflip : ∃ i ∈ ids, s.getD i false = false ∧
            s1.getD i false = true := by
          rcases hprogT hp1 with h | h
          · cases h
          · exact h
        obtain ⟨i0, hi0, hi0u, hi0r⟩ := hflip
        have hcount1 :
            (ids.filter (fun i => !s1.getD i false)).length ≤ fuel := by
          have := filter_unres_strict s s1 ids
            (fun j _ hj => hmono j hj) i0 hi0 hi0u hi0r
          omega
        have hlen1' : ∀ i ∈ ids, i < s1.length := by
          intro i hi; rw [hlen1]; exact hlen i hi
        have hpre1 : ∀ i ∈ ids, d i < j0 + 1 → s1.getD i false = true := by
          intro i hi hdi
          by_cases hres : s.getD i false = true
          · exact hmono i hres
          · rw [Bool.not_eq_true] at hres
            refine hready i hi hres ?_
            intro j hj
            exact hpre j (hclosed i hi j hj) (by
              have := hacyc i hi j hj
              omega)
        obtain ⟨s', out', passes', heq', hcov', hpass', hD'⟩ :=
          ih s1 out1 (passes + 1) (j0 + 1) hlen1' hcount1 hout1 hpre1
        refine ⟨s', out', passes', ?_, hcov', by omega, ?_⟩
        · simp only [resolveLoop, heq, hc, if_neg, hp1, if_pos]
          exact heq'
        · intro hj0
          -- work remained after this pass, so j0 + 1 is still below D
          have hun1 : ∃ i ∈ ids, s1.getD i false = false := by
            by_contra hall
            push_neg at hall
            refine hc (hcnt.mpr ⟨rfl, ?_⟩)
            intro i hi
            cases h : s1.getD i false
            · exact absurd h (hall i hi)
            · rfl
          obtain ⟨i2, hi2, hi2u⟩ := hun1
          have hd2 : ¬ d i2 < j0 + 1 := by
            intro hcon
            rw [hpre1 i2 hi2 hcon] at hi2u
            cases hi2u
          have : j0 + 1 < D := by
            have := hD i2 hi2
            omega
          have := hD' this
          omega

/-- Per-expression pass bound: after `fuel` passes every expression whose
depth lies below `j0 + fuel` is resolved (whatever the loop's other
outputs). -/
theorem resolveLoop_depth (deps : List (List Nat)) (d : Nat → Nat)
    (ids : List Nat) (hnd : ids.Nodup)
    (hclosed : ∀ i ∈ ids, ∀ j ∈ deps.getD i [], j ∈ ids)
    (hacyc : ∀ i ∈ ids, ∀ j ∈ deps.getD i [], d j < d i) :
    ∀ (fuel : Nat) (s : List Bool) (out : List Nat) (passes j0 : Nat),
      (∀ i ∈ ids, i < s.length) →
      (∀ i ∈ ids, d i < j0 → s.getD i false = true) →
      ∀ i ∈ ids, d i < j0 + fuel →
        ((resolveLoop (flagOps deps) ids fuel s out passes).1).getD i
          false = true := by
  intro fuel
  induction fuel with
  | zero =>
    intro s out passes j0 hlen hpre i hi hdi
    exact hpre i hi (by omega)
  | succ fuel ih =>
    intro s out passes j0 hlen hpre i hi hdi
    obtain ⟨s1, out1, prog1, cnt1, heq, hlen1, hmono, hframe, hready,
      hcnt, hprogF, hprogT, hcov, hext, hpm⟩ :=
      resolvePass_flags deps ids hnd s out false 0 hlen
    have hpre1 : ∀ i ∈ ids, d i < j0 + 1 → s1.getD i false = true := by
      intro i2 hi2 hdi2
      by_cases hres : s.getD i2 false = true
      · exact hmono i2 hres
      · rw [Bool.not_eq_true] at hres
        refine hready i2 hi2 hres ?_
        intro j hj
        exact hpre j (hclosed i2 hi2 j hj) (by
          have := hacyc i2 hi2 j hj
          omega)
    by_cases hc : cnt1 = 0
    · obtain ⟨_, hall⟩ := hcnt.mp hc
      simp only [resolveLoop, heq, hc, if_pos]
      exact hall i hi
    · cases hp1 : prog1 with
      | false =>
        exfalso
        obtain ⟨_, hseq, _⟩ := hprogF hp1
        have hun : ∃ i2 ∈ ids, s.getD i2 false = false := by
          by_contra hall
          push_neg at hall
          refine hc (hcnt.mpr ⟨rfl, ?_⟩)
          intro i2 hi2
          rw [hseq]
          cases h : s.getD i2 false
          · exact absurd h (hall i2 hi2)
          · rfl
        obtain ⟨i1, hi1, hi1u⟩ := hun
        obtain ⟨i0, hi0, hi0u, hi0r⟩ :=
          exists_ready deps d ids hclosed hacyc s i1 hi1 hi1u
        have h2 := hready i0 hi0 hi0u hi0r
        rw [hseq] at h2
        rw [h2] at hi0u
        cases hi0u
      | true =>
        have hlen1' : ∀ i2 ∈ ids, i2 < s1.length := by
          intro i2 hi2; rw [hlen1]; exact hlen i2 hi2
        have := ih s1 out1 (passes + 1) (j0 + 1) hlen1' hpre1 i hi (by omega)
        simp only [resolveLoop, heq, hc, if_neg, hp1, if_pos]
        exact this

/-- Resolver loop on a batch containing a dependency cycle: as soon as
the eligible expressions run out — within the fuel budget — the no-
progress check fires and the circular-dependency error is raised. -/
theorem resolveLoop_cycle (deps : List (List Nat)) (C : List Nat)
    (ids : List Nat) (hnd : ids.Nodup)
    (hCne : C ≠ []) (hCsub : ∀ i ∈ C, i ∈ ids)
    (hCdep : ∀ i ∈ C, ∃ j ∈ deps.getD i [], j ∈ C) :
    ∀ (fuel : Nat) (s : List Bool) (out : List Nat) (passes : Nat),
      (∀ i ∈ ids, i < s.length) →
      ((ids.filter (fun i => !s.getD i false)).length ≤ fuel) →
      (∀ i ∈ C, s.getD i false = false) →
      ∃ s', resolveLoop (flagOps deps) ids fuel s out passes =
        (s', .error "Circular dependency detected among expressions.") := by
  intro fuel
  induction fuel with
  | zero =>
    intro s out passes hlen hcount hC
    exfalso
    obtain ⟨c0, hc0⟩ := List.exists_mem_of_ne_nil C hCne
    have : c0 ∈ ids.filter (fun i => !s.getD i false) := by
      rw [List.mem_filter]
      exact ⟨hCsub c0 hc0, by rw [hC c0 hc0]; rfl⟩
    have := List.length_pos_of_mem this
    omega
  | succ fuel ih =>
    intro s out passes hlen hcount hC
    obtain ⟨s1, out1, prog1, cnt1, heq, hlen1, hmono, hframe, hready,
      hcnt, hprogF, hprogT, hcov, hext, hpm⟩ :=
      resolvePass_flags deps ids hnd s out false 0 hlen
    obtain ⟨s1c, out1c, prog1c, cnt1c, heqc, hC1⟩ :=
      resolvePass_cycle deps C hCdep ids s out false 0 hC
    rw [heq] at heqc
    injection heqc with h1 h2
    subst h1
    injection h2 with h2
    injection h2 with h2a h2b
    obtain ⟨h2b1, h2b2⟩ := Prod.mk.injEq .. ▸ h2b
    -- after the pass every member of C is still unresolved
    obtain ⟨c0, hc0⟩ := List.exists_mem_of_ne_nil C hCne
    have hc0un : s1.getD c0 false = false := hC1 c0 hc0
    have hcne : cnt1 ≠ 0 := by
      intro h0
      obtain ⟨_, hall⟩ := hcnt.mp h0
      rw [hall c0 (hCsub c0 hc0)] at hc0un
      cases hc0un
    cases hp1 : prog1 with
    | false =>
      refine ⟨s1, ?_⟩
      simp only [resolveLoop, heq, hcne, if_neg, hp1, Bool.false_eq_true,
        if_false]
    | true =>
      have hflip : ∃ i ∈ ids, s.getD i false = false ∧
          s1.getD i false = true := by
        rcases hprogT hp1 with h | h
        · cases h
        · exact h
      obtain ⟨i0, hi0, hi0u, hi0r⟩ := hflip
      have hcount1 :
          (ids.filter (fun i => !s1.getD i false)).length ≤ fuel := by
        have := filter_unres_strict s s1 ids
          (fun j _ hj => hmono j hj) i0 hi0 hi0u hi0r
        omega
      have hlen1' : ∀ i ∈ ids, i < s1.length := by
        intro i hi; rw [hlen1]; exact hlen i hi
      obtain ⟨s', heq'⟩ := ih s1 out1 (passes + 1) hlen1' hcount1 hC1
      refine ⟨s', ?_⟩
      simp only [resolveLoop, heq, hcne, if_neg, hp1, if_pos]
      exact heq'

/-- Fresh flag vectors are all-unresolved. -/
theorem getD_replicate_false : ∀ (n i : Nat),
    (List.replicate n false).getD i false = false := by
  intro n
  induction n with
  | zero => intro i; cases i <;> rfl
  | succ m ih =>
    intro i
    cases i with
    | zero => rfl
    | succ k => exact ih k

/-- C1: on a batch of bound dependent expressions whose dependency
relation is acyclic — witnessed by a measure `d` that strictly drops
along dependencies — `resolveExpressions` succeeds, its output contains
every input expression, it performs at most `N` passes for `N` inputs and
at most `D` passes when every chain depth lies below `D`; moreover each
individual expression `i` is already resolved after `d i + 1` passes
(`k` passes for any `k > d i`). -/
theorem resolver_acyclic_completes (deps : List (List Nat)) (d : Nat → Nat)
    (hclosed : ∀ i < deps.length, ∀ j ∈ deps.getD i [], j < deps.length)
    (hacyc : ∀ i < deps.length, ∀ j ∈ deps.getD i [], d j < d i)
    (D : Nat) (hD : ∀ i < deps.length, d i < D) :
    (∃ s' out passes,
      resolveFlags deps = (s', .ok (out, passes)) ∧
      (∀ i < deps.length, i ∈ out) ∧
      passes ≤ deps.length ∧ passes ≤ D) ∧
    (∀ i < deps.length, ∀ k, d i < k →
      (flagsAfter deps k).getD i false = true) := by
  have hclosed' : ∀ i ∈ List.range deps.length, ∀ j ∈ deps.getD i [],
      j ∈ List.range deps.length := by
    intro i hi j hj
    rw [List.mem_range] at hi ⊢
    exact hclosed i hi j hj
  have hacyc' : ∀ i ∈ List.range deps.length, ∀ j ∈ deps.getD i [],
      d j < d i := by
    intro i hi j hj
    rw [List.mem_range] at hi
    exact hacyc i hi j hj
  have hlen : ∀ i ∈ List.range deps.length,
      i < (List.replicate deps.length false).length := by
    intro i hi
    rw [List.length_replicate]
    exact List.mem_range.mp hi
  constructor
  · have hD' : ∀ i ∈ List.range deps.length, d i < D := by
      intro i hi
      exact hD i (List.mem_range.mp hi)
    obtain ⟨s', out', passes', heq, hcov, hpassN, hpassD⟩ :=
      resolveLoop_acyclic deps d (List.range deps.length)
        (List.nodup_range deps.length) hclosed' hacyc' D hD'
        (List.range deps.length).length
        (List.replicate deps.length false) [] 0 0 hlen
        (List.length_filter_le _ _)
        (by
          intro i hi hcon
          rw [getD_replicate_false] at hcon
          cases hcon)
        (by intro i _ h; omega)
    refine ⟨s', out', passes', heq, ?_, ?_, ?_⟩
    · intro i hi
      exact hcov i (List.mem_range.mpr hi)
    · rw [List.length_range] at hpassN
      omega
    · by_cases hD0 : 0 < D
      · have := hpassD hD0
        omega
      · have hn0 : deps.length = 0 := by
          by_contra hn
          exact hD0 (by
            have := hD 0 (by omega)
            omega)
        rw [List.length_range, hn0] at hpassN
        omega
  · intro i hi k hk
    exact resolveLoop_depth deps d (List.range deps.length)
      (List.nodup_range deps.length) hclosed' hacyc' k
      (List.replicate deps.length false) [] 0 0 hlen
      (by intro i2 _ h; omega) i (List.mem_range.mpr hi) (by omega)

/-- Witness for C1 on the batch `0 ↦ "uses 1"`, `1 ↦ "no deps"` with
depths 1 and 0 and `D = 2`. -/
theorem resolver_acyclic_completes_witness :
    (∃ s' out passes, resolveFlags [[1], []] = (s', .ok (out, passes)) ∧
      0 ∈ out ∧ 1 ∈ out ∧ passes ≤ 2) ∧
    (flagsAfter [[1], []] 1).getD 1 false = true ∧
    (flagsAfter [[1], []] 2).getD 0 false = true := by
  obtain ⟨⟨s', out, passes, heq, hcov, hpN, hpD⟩, hdepth⟩ :=
    resolver_acyclic_completes [[1], []] (fun i => if i = 0 then 1 else 0)
      (by decide) (by decide) 2 (by decide)
  refine ⟨⟨s', out, passes, heq, hcov 0 (by decide), hcov 1 (by decide),
    hpD⟩, ?_, ?_⟩
  · exact hdepth 1 (by decide) 1 (by decide)
  · exact hdepth 0 (by decide) 2 (by decide)

/-- C2: on every batch whose dependency relation contains a cycle —
a nonempty set of expressions each depending on another member — the
resolver terminates by raising the circular-dependency error (raised by
the loop exactly when a full pass makes no progress while unresolved
expressions remain); and `Module.compile` driving the same resolver over
the parsed, bound batch `x = "2*y"`, `y = "x/2"` fails with exactly that
error. -/
theorem resolver_detects_cycles :
    (∀ (deps : List (List Nat)) (C : List Nat), C ≠ [] →
      (∀ i ∈ C, i < deps.length) →
      (∀ i ∈ C, ∃ j ∈ deps.getD i [], j ∈ C) →
      ∃ s', resolveFlags deps =
        (s', .error "Circular dependency detected among expressions.")) ∧
    cycleScenario.2 =
      .error "Circular dependency detected among expressions." := by
  constructor
  · intro deps C hne hsub hdep
    refine resolveLoop_cycle deps C (List.range deps.length)
      (List.nodup_range deps.length) hne
      (fun i hi => List.mem_range.mpr (hsub i hi)) hdep
      (List.range deps.length).length
      (List.replicate deps.length false) [] 0
      ?_ (List.length_filter_le _ _) ?_
    · intro i hi
      rw [List.length_replicate]
      exact List.mem_range.mp hi
    · intro i _
      exact getD_replicate_false _ _
  · decide

/-- Witness for C2 on the two-element cycle `0 ↦ uses 1`, `1 ↦ uses 0`. -/
theorem resolver_detects_cycles_witness :
    ∃ s', resolveFlags [[1], [0]] =
      (s', .error "Circular dependency detected among expressions.") :=
  resolver_detects_cycles.1 [[1], [0]] [0, 1] (by decide) (by decide)
    (by decide)

/-! #### Round trip: lexing a printed formula -/

/-- Digit characters of a printed natural number. -/
theorem natDigits_digits : ∀ n : Nat, ∀ c ∈ natDigits n, isDigitC c = true := by
  intro n
  induction n using Nat.strong_induction_on with
  | _ n ih =>
    rw [natDigits]
    by_cases h : n < 10
    · rw [dif_pos h]
      intro c hc
      rw [List.mem_singleton] at hc
      subst hc
      interval_cases n <;> decide
    · rw [dif_neg h]
      intro c hc
      rw [List.mem_append] at hc
      rcases hc with hc | hc
      · exact ih (n / 10) (Nat.div_lt_self (by omega) (by omega)) c hc
      · rw [List.mem_singleton] at hc
        subst hc
        have h10 : n % 10 < 10 := Nat.mod_lt n (by omega)
        interval_cases hm : n % 10 <;> decide

/-- A printed natural number is nonempty. -/
theorem natDigits_ne_nil (n : Nat) : natDigits n ≠ [] := by
  rw [natDigits]
  by_cases h : n < 10
  · rw [dif_pos h]; simp
  · rw [dif_neg h]; simp

/-- Reading one digit back. -/
theorem digit_char_val : ∀ m < 10, (Char.ofNat (48 + m)).toNat - 48 = m := by
  intro m hm
  interval_cases m <;> decide

/-- `digitsVal` unfolds one digit from the right. -/
theorem digitsVal_append (xs : List Char) (c : Char) :
    digitsVal (xs ++ [c]) = 10 * digitsVal xs + (c.toNat - 48) := by
  simp [digitsVal, List.foldl_append]

/-- The lexer's digit fold inverts decimal printing. -/
theorem digitsVal_natDigits : ∀ n : Nat, digitsVal (natDigits n) = n := by
  intro n
  induction n using Nat.strong_induction_on with
  | _ n ih =>
    rw [natDigits]
    by_cases h : n < 10
    · rw [dif_pos h]
      have : digitsVal [Char.ofNat (48 + n)] = (Char.ofNat (48 + n)).toNat - 48 := by
        simp [digitsVal]
      rw [this, digit_char_val n h]
    · rw [dif_neg h]
      rw [digitsVal_append,
        ih (n / 10) (Nat.div_lt_self (by omega) (by omega)),
        digit_char_val (n % 10) (Nat.mod_lt n (by omega))]
      omega

/-- `takeWhile` stops exactly at the first failing element. -/
theorem takeWhile_append_not (p : Char → Bool) :
    ∀ (xs : List Char) (y : Char) (ys : List Char),
      (∀ c ∈ xs, p c = true) → p y = false →
      (xs ++ y :: ys).takeWhile p = xs := by
  intro xs
  induction xs with
  | nil =>
    intro y ys _ hy
    simp [List.takeWhile, hy]
  | cons x xs ih =>
    intro y ys hall hy
    have hx : p x = true := hall x (by simp)
    simp only [List.cons_append, List.takeWhile_cons, hx, if_pos]
    rw [ih y ys (fun c hc => hall c (by simp [hc])) hy]

/-- `dropWhile` drops exactly up to the first failing element. -/
theorem dropWhile_append_not (p : Char → Bool) :
    ∀ (xs : List Char) (y : Char) (ys : List Char),
      (∀ c ∈ xs, p c = true) → p y = false →
      (xs ++ y :: ys).dropWhile p = y :: ys := by
  intro xs
  induction xs with
  | nil =>
    intro y ys _ hy
    simp [List.dropWhile, hy]
  | cons x xs ih =>
    intro y ys hall hy
    have hx : p x = true := hall x (by simp)
    simp only [List.cons_append, List.dropWhile_cons, hx, if_pos]
    rw [ih y ys (fun c hc => hall c (by simp [hc])) hy]

/-- Number printing round-trips through JS `Number`. -/
theorem decValue_natDigits (n : Nat) :
    decValue (natDigits n) [] = (n : ℚ) := by
  simp [decValue, digitsVal_natDigits]

/-- `nextToken` consumes exactly one printed token followed by a space,
producing its kind and value and stopping at the space. -/
theorem nextToken_ftok (t : FTok) (tail : List Char) (p : Nat) :
    ∃ lex pos p',
      nextToken ⟨ftChars1 t ++ ' ' :: tail, p⟩ =
        (⟨(ftProj t).1, lex, pos, (ftProj t).2⟩, ⟨' ' :: tail, p'⟩) := by
  cases t with
  | fnum n =>
    obtain ⟨c, cs, hnc⟩ : ∃ c cs, natDigits n = c :: cs := by
      cases h : natDigits n with
      | nil => exact absurd h (natDigits_ne_nil n)
      | cons c cs => exact ⟨c, cs, rfl⟩
    have hdig : ∀ x ∈ natDigits n, isDigitC x = true := natDigits_digits n
    have hval := decValue_natDigits n
    refine ⟨natDigits n, p, p + (natDigits n).length, ?_⟩
    rw [show ftChars1 (.fnum n) = natDigits n from rfl]
    rw [hnc] at hdig hval ⊢
    have hc : isDigitC c = true := hdig c (by simp)
    have hsp : ¬ c = ' ' := fun h => by
      rw [h] at hc; exact absurd hc (by decide)
    have htb : ¬ c = '\t' := fun h => by
      rw [h] at hc; exact absurd hc (by decide)
    have hnl : ¬ c = '\n' := fun h => by
      rw [h] at hc; exact absurd hc (by decide)
    have hcr : ¬ c = '\r' := fun h => by
      rw [h] at hc; exact absurd hc (by decide)
    have hskip : skipWs (c :: (cs ++ ' ' :: tail)) p =
        ⟨c :: (cs ++ ' ' :: tail), p⟩ := by
      simp [skipWs, hsp, htb, hnl, hcr]
    have htake := takeWhile_append_not isDigitC (c :: cs) ' ' tail hdig
      (by decide)
    have hdrop := dropWhile_append_not isDigitC (c :: cs) ' ' tail hdig
      (by decide)
    rw [List.cons_append] at htake hdrop
    simp only [nextToken, List.cons_append, hskip, hc, if_pos]
    simp only [scanNumber, htake, hdrop]
    simp only [ftProj]
    rw [hval]
    split
    · rename_i r2 heq
      simp at heq
    · rfl
  | fplus => exact ⟨['+'], p, p + 1, rfl⟩
  | fminus => exact ⟨['-'], p, p + 1, rfl⟩
  | fstar => exact ⟨['*'], p, p + 1, rfl⟩
  | fslash => exact ⟨['/'], p, p + 1, rfl⟩
  | fpct => exact ⟨['%'], p, p + 1, rfl⟩
  | flparen => exact ⟨['('], p, p + 1, rfl⟩
  | frparen => exact ⟨[')'], p, p + 1, rfl⟩

/-- A leading space is consumed by the whitespace skipper inside
`nextToken`. -/
theorem nextToken_space (xs : List Char) (q : Nat) :
    nextToken ⟨' ' :: xs, q⟩ = nextToken ⟨xs, q + 1⟩ := by
  have h : skipWs (' ' :: xs) q = skipWs xs (q + 1) := by
    simp [skipWs]
  simp only [nextToken, h]

/-- `tokenizeFrom` is insensitive to one leading space. -/
theorem tokenizeFrom_space (fuel : Nat) (xs : List Char) (q : Nat) :
    tokenizeFrom fuel ⟨' ' :: xs, q⟩ = tokenizeFrom fuel ⟨xs, q + 1⟩ := by
  cases fuel with
  | zero => rfl
  | succ f => simp only [tokenizeFrom, nextToken_space]

/-- Every spec token prints at least one character. -/
theorem ftChars1_len_pos (t : FTok) : 1 ≤ (ftChars1 t).length := by
  cases t with
  | fnum n =>
    cases h : natDigits n with
    | nil => exact absurd h (natDigits_ne_nil n)
    | cons c cs => simp [ftChars1, h]
  | fplus => decide
  | fminus => decide
  | fstar => decide
  | fslash => decide
  | fpct => decide
  | flparen => decide
  | frparen => decide

/-- No spec token lexes to the EOF kind. -/
theorem ftProj_ne_eof (t : FTok) : (ftProj t).1 ≠ TokenType.EOF := by
  cases t <;> simp [ftProj]

/-- Lexing the printed characters of a spec token list yields exactly the
projected tokens followed by the EOF token. -/
theorem tokenizeFrom_ftoks :
    ∀ (L : List FTok) (fuel p : Nat), (ftChars L).length + 1 ≤ fuel →
      (tokenizeFrom fuel ⟨ftChars L, p⟩).map projT =
        L.map ftProj ++ [(TokenType.EOF, (0 : ℚ))] := by
  intro L
  induction L with
  | nil =>
    intro fuel p hf
    cases fuel with
    | zero => simp [ftChars] at hf
    | succ f => rfl
  | cons t L ih =>
    intro fuel p hf
    have hchars : ftChars (t :: L) = ftChars1 t ++ ' ' :: ftChars L := by
      simp [ftChars]
    rw [hchars] at hf ⊢
    have hlen : (ftChars1 t ++ ' ' :: ftChars L).length =
        (ftChars1 t).length + ((ftChars L).length + 1) := by simp
    have h1 := ftChars1_len_pos t
    cases fuel with
    | zero => omega
    | succ f =>
      obtain ⟨lex, pos, p1, hnt⟩ := nextToken_ftok t (ftChars L) p
      have hne := ftProj_ne_eof t
      simp only [tokenizeFrom, hnt]
      rw [if_neg hne]
      rw [tokenizeFrom_space]
      have hfle : (ftChars L).length + 1 ≤ f := by omega
      rw [List.map_cons, ih f (p1 + 1) hfle]
      simp [projT]

/-- Splitting a projected token list along an append of projections. -/
theorem map_proj_split (P Q : List (TokenType × ℚ)) : ∀ ts : List Token,
    ts.map projT = P ++ Q →
    ∃ u v, ts = u ++ v ∧ u.map projT = P ∧ v.map projT = Q := by
  induction P with
  | nil => intro ts h; exact ⟨[], ts, rfl, rfl, by simpa using h⟩
  | cons x P ih =>
    intro ts h
    cases ts with
    | nil => simp at h
    | cons t ts =>
      simp only [List.map_cons, List.cons_append, List.cons.injEq] at h
      obtain ⟨h1, h2⟩ := h
      obtain ⟨u, v, rfl, hu, hv⟩ := ih ts h2
      exact ⟨t :: u, v, rfl, by simp [hu, h1], hv⟩

/-- An empty token match forces the empty token list. -/
theorem tokMatch_nil {ts : List Token} (h : TokMatch ts []) : ts = [] := by
  cases ts with
  | nil => rfl
  | cons t ts => simp [TokMatch] at h

/-- Head decomposition of a token match. -/
theorem tokMatch_cons {ts : List Token} {x : FTok} {L : List FTok}
    (h : TokMatch ts (x :: L)) :
    ∃ t ts2, ts = t :: ts2 ∧ t.type = (ftProj x).1 ∧
      t.value = (ftProj x).2 ∧ TokMatch ts2 L := by
  cases ts with
  | nil => simp [TokMatch] at h
  | cons t ts2 =>
    simp only [TokMatch, List.map_cons, List.cons.injEq] at h
    obtain ⟨h1, h2⟩ := h
    have hty : t.type = (ftProj x).1 := by rw [← h1]; rfl
    have hv : t.value = (ftProj x).2 := by rw [← h1]; rfl
    exact ⟨t, ts2, rfl, hty, hv, h2⟩

/-- Append decomposition of a token match. -/
theorem tokMatch_append {ts : List Token} {A B : List FTok}
    (h : TokMatch ts (A ++ B)) :
    ∃ u v, ts = u ++ v ∧ TokMatch u A ∧ TokMatch v B := by
  have h2 : ts.map projT = A.map ftProj ++ B.map ftProj := by
    have h3 : ts.map projT = (A ++ B).map ftProj := h
    simpa using h3
  obtain ⟨u, v, rfl, hu, hv⟩ := map_proj_split _ _ ts h2
  exact ⟨u, v, rfl, hu, hv⟩

/-- A token match preserves length. -/
theorem tokMatch_length {ts : List Token} {L : List FTok}
    (h : TokMatch ts L) : ts.length = L.length := by
  have h2 : ts.map projT = L.map ftProj := h
  have := congrArg List.length h2
  simpa using this

/-- `curT` on a nonempty stream is its head. -/
theorem curT_cons (t : Token) (l : List Token) : curT (t :: l) = t := rfl

/-- Non-additive formulas print alike at the additive and multiplicative
levels. -/
theorem flatF_one_two (f : Formula) (h : 2 ≤ precF f) :
    flatF f 1 = flatF f 2 := by
  cases f with
  | lit n => rfl
  | neg a => rfl
  | add a b => simp [precF] at h
  | sub a b => simp [precF] at h
  | mul a b => rfl
  | div a b => rfl
  | mod a b => rfl

/-- Non-multiplicative formulas print alike at the multiplicative and
unary levels. -/
theorem flatF_two_three (f : Formula) (h : precF f ≠ 2) :
    flatF f 2 = flatF f 3 := by
  cases f with
  | lit n => rfl
  | neg a => rfl
  | add a b => rfl
  | sub a b => rfl
  | mul a b => exact absurd rfl h
  | div a b => exact absurd rfl h
  | mod a b => exact absurd rfl h

/-- Binary-rooted formulas are parenthesized at the unary level, and the
parenthesized body is their additive-level printing. -/
theorem flatF_three_wrapped (f : Formula) (h : precF f ≤ 2) :
    flatF f 3 = .flparen :: (flatF f 1 ++ [.frparen]) := by
  cases f with
  | lit n => simp [precF] at h
  | neg a => simp [precF] at h
  | add a b => rfl
  | sub a b => rfl
  | mul a b => rfl
  | div a b => rfl
  | mod a b => rfl

/-- The head of an additive spine is never additive-rooted. -/
theorem addSpine_prec : ∀ f : Formula, 2 ≤ precF (addSpine f).1 := by
  intro f
  induction f with
  | lit n => simp [addSpine, precF]
  | neg a ih => simp [addSpine, precF]
  | add a b iha ihb => simpa [addSpine] using iha
  | sub a b iha ihb => simpa [addSpine] using iha
  | mul a b iha ihb => simp [addSpine, precF]
  | div a b iha ihb => simp [addSpine, precF]
  | mod a b iha ihb => simp [addSpine, precF]

/-- Every operator on an additive spine is `+` or `-`. -/
theorem addSpine_ops : ∀ (f : Formula) (oc : FTok × Formula),
    oc ∈ (addSpine f).2 → oc.1 = FTok.fplus ∨ oc.1 = FTok.fminus := by
  intro f
  induction f with
  | add a b iha ihb =>
    intro oc hm
    simp only [addSpine, List.mem_append, List.mem_singleton] at hm
    rcases hm with hm | rfl
    · exact iha oc hm
    · exact Or.inl rfl
  | sub a b iha ihb =>
    intro oc hm
    simp only [addSpine, List.mem_append, List.mem_singleton] at hm
    rcases hm with hm | rfl
    · exact iha oc hm
    · exact Or.inr rfl
  | lit n => intro oc hm; simp [addSpine] at hm
  | neg a ih => intro oc hm; simp [addSpine] at hm
  | mul a b iha ihb => intro oc hm; simp [addSpine] at hm
  | div a b iha ihb => intro oc hm; simp [addSpine] at hm
  | mod a b iha ihb => intro oc hm; simp [addSpine] at hm

/-- Additive-level printing is the head's multiplicative-level printing
followed by the spine's operator/operand chunks. -/
theorem addSpine_flat : ∀ f : Formula,
    flatF f 1 = flatF (addSpine f).1 2 ++
      (addSpine f).2.flatMap (fun oc => oc.1 :: flatF oc.2 2) := by
  intro f
  induction f with
  | lit n =>
    simp only [addSpine, List.flatMap_nil, List.append_nil]
    exact flatF_one_two _ (by simp [precF])
  | neg a ih =>
    simp only [addSpine, List.flatMap_nil, List.append_nil]
    exact flatF_one_two _ (by simp [precF])
  | mul a b iha ihb =>
    simp only [addSpine, List.flatMap_nil, List.append_nil]
    exact flatF_one_two _ (by simp [precF])
  | div a b iha ihb =>
    simp only [addSpine, List.flatMap_nil, List.append_nil]
    exact flatF_one_two _ (by simp [precF])
  | mod a b iha ihb =>
    simp only [addSpine, List.flatMap_nil, List.append_nil]
    exact flatF_one_two _ (by simp [precF])
  | add a b iha ihb =>
    have h : flatF (.add a b) 1 = flatF a 1 ++ .fplus :: flatF b 2 := rfl
    rw [h, iha]
    simp [addSpine, List.append_assoc]
  | sub a b iha ihb =>
    have h : flatF (.sub a b) 1 = flatF a 1 ++ .fminus :: flatF b 2 := rfl
    rw [h, iha]
    simp [addSpine, List.append_assoc]

/-- The grammar's AST is the left fold of the additive spine. -/
theorem addSpine_ast : ∀ f : Formula,
    astOf f = (addSpine f).2.foldl
      (fun A oc => Ast.binary A (ftProj oc.1).1 (astOf oc.2))
      (astOf (addSpine f).1) := by
  intro f
  induction f with
  | lit n => simp [addSpine]
  | neg a ih => simp [addSpine]
  | mul a b iha ihb => simp [addSpine]
  | div a b iha ihb => simp [addSpine]
  | mod a b iha ihb => simp [addSpine]
  | add a b iha ihb =>
    have h : astOf (.add a b) = .binary (astOf a) .PLUS (astOf b) := rfl
    rw [h, iha]
    simp [addSpine, List.foldl_append, ftProj]
  | sub a b iha ihb =>
    have h : astOf (.sub a b) = .binary (astOf a) .MINUS (astOf b) := rfl
    rw [h, iha]
    simp [addSpine, List.foldl_append, ftProj]

/-- The head of a multiplicative spine is never multiplicative-rooted. -/
theorem mulSpine_prec : ∀ f : Formula, precF (mulSpine f).1 ≠ 2 := by
  intro f
  induction f with
  | lit n => simp [mulSpine, precF]
  | neg a ih => simp [mulSpine, precF]
  | add a b iha ihb => simp [mulSpine, precF]
  | sub a b iha ihb => simp [mulSpine, precF]
  | mul a b iha ihb => simpa [mulSpine] using iha
  | div a b iha ihb => simpa [mulSpine] using iha
  | mod a b iha ihb => simpa [mulSpine] using iha

/-- Every operator on a multiplicative spine is `*`, `/` or `%`. -/
theorem mulSpine_ops : ∀ (f : Formula) (oc : FTok × Formula),
    oc ∈ (mulSpine f).2 →
      oc.1 = FTok.fstar ∨ oc.1 = FTok.fslash ∨ oc.1 = FTok.fpct := by
  intro f
  induction f with
  | mul a b iha ihb =>
    intro oc hm
    simp only [mulSpine, List.mem_append, List.mem_singleton] at hm
    rcases hm with hm | rfl
    · exact iha oc hm
    · exact Or.inl rfl
  | div a b iha ihb =>
    intro oc hm
    simp only [mulSpine, List.mem_append, List.mem_singleton] at hm
    rcases hm with hm | rfl
    · exact iha oc hm
    · exact Or.inr (Or.inl rfl)
  | mod a b iha ihb =>
    intro oc hm
    simp only [mulSpine, List.mem_append, List.mem_singleton] at hm
    rcases hm with hm | rfl
    · exact iha oc hm
    · exact Or.inr (Or.inr rfl)
  | lit n => intro oc hm; simp [mulSpine] at hm
  | neg a ih => intro oc hm; simp [mulSpine] at hm
  | add a b iha ihb => intro oc hm; simp [mulSpine] at hm
  | sub a b iha ihb => intro oc hm; simp [mulSpine] at hm

/-- Multiplicative-level printing is the head's printing followed by the
spine's operator/operand chunks (operands at the unary level). -/
theorem mulSpine_flat : ∀ f : Formula,
    flatF f 2 = flatF (mulSpine f).1 2 ++
      (mulSpine f).2.flatMap (fun oc => oc.1 :: flatF oc.2 3) := by
  intro f
  induction f with
  | lit n => simp [mulSpine]
  | neg a ih => simp [mulSpine]
  | add a b iha ihb => simp [mulSpine]
  | sub a b iha ihb => simp [mulSpine]
  | mul a b iha ihb =>
    have h : flatF (.mul a b) 2 = flatF a 2 ++ .fstar :: flatF b 3 := rfl
    rw [h, iha]
    simp [mulSpine, List.append_assoc]
  | div a b iha ihb =>
    have h : flatF (.div a b) 2 = flatF a 2 ++ .fslash :: flatF b 3 := rfl
    rw [h, iha]
    simp [mulSpine, List.append_assoc]
  | mod a b iha ihb =>
    have h : flatF (.mod a b) 2 = flatF a 2 ++ .fpct :: flatF b 3 := rfl
    rw [h, iha]
    simp [mulSpine, List.append_assoc]

/-- The grammar's AST is the left fold of the multiplicative spine. -/
theorem mulSpine_ast : ∀ f : Formula,
    astOf f = (mulSpine f).2.foldl
      (fun A oc => Ast.binary A (ftProj oc.1).1 (astOf oc.2))
      (astOf (mulSpine f).1) := by
  intro f
  induction f with
  | lit n => simp [mulSpine]
  | neg a ih => simp [mulSpine]
  | add a b iha ihb => simp [mulSpine]
  | sub a b iha ihb => simp [mulSpine]
  | mul a b iha ihb =>
    have h : astOf (.mul a b) = .binary (astOf a) .STAR (astOf b) := rfl
    rw [h, iha]
    simp [mulSpine, List.foldl_append, ftProj]
  | div a b iha ihb =>
    have h : astOf (.div a b) = .binary (astOf a) .SLASH (astOf b) := rfl
    rw [h, iha]
    simp [mulSpine, List.foldl_append, ftProj]
  | mod a b iha ihb =>
    have h : astOf (.mod a b) = .binary (astOf a) .PERCENT (astOf b) := rfl
    rw [h, iha]
    simp [mulSpine, List.foldl_append, ftProj]

/-- A member's chunk is no longer than the whole flattened chain. -/
theorem length_le_flatMap {α β : Type} (g : α → List β) :
    ∀ (l : List α) (x : α), x ∈ l →
      (g x).length ≤ (l.flatMap g).length := by
  intro l
  induction l with
  | nil => intro x hx; simp at hx
  | cons y l ih =>
    intro x hx
    rcases List.mem_cons.mp hx with rfl | hx
    · simp only [List.flatMap_cons, List.length_append]
      exact Nat.le_add_right _ _
    · calc (g x).length ≤ (l.flatMap g).length := ih x hx
        _ ≤ ((y :: l).flatMap g).length := by
            simp only [List.flatMap_cons, List.length_append]
            exact Nat.le_add_left _ _

/-- Correctness of the multiplicative while-loop on a printed
operator/operand chain: it folds the chain left-associatively onto the
accumulated node and stops at the first non-multiplicative token. -/
theorem mulLoop_chain (l : List (FTok × Formula))
    (hops : ∀ oc ∈ l,
      oc.1 = FTok.fstar ∨ oc.1 = FTok.fslash ∨ oc.1 = FTok.fpct)
    (hcomp : ∀ oc ∈ l, ∀ (ts rest : List Token) (fuel : Nat),
      TokMatch ts (flatF oc.2 3) →
      2 * (flatF oc.2 3).length + 4 ≤ fuel →
      parseUnary fuel (ts ++ rest) = .ok (astOf oc.2, rest)) :
    ∀ (L : Ast) (ts rest : List Token) (fuel : Nat),
      TokMatch ts (l.flatMap (fun oc => oc.1 :: flatF oc.2 3)) →
      2 * ts.length + 3 ≤ fuel →
      (curT rest).type ≠ TokenType.STAR →
      (curT rest).type ≠ TokenType.SLASH →
      (curT rest).type ≠ TokenType.PERCENT →
      parseMultiplicativeLoop fuel L (ts ++ rest) =
        .ok (l.foldl
          (fun A oc => Ast.binary A (ftProj oc.1).1 (astOf oc.2)) L,
          rest) := by
  induction l with
  | nil =>
    intro L ts rest fuel hm hf h1 h2 h3
    have hts := tokMatch_nil (by simpa using hm)
    subst hts
    obtain ⟨g, rfl⟩ : ∃ g, fuel = g + 1 := ⟨fuel - 1, by omega⟩
    simp [parseMultiplicativeLoop, h1, h2, h3]
  | cons oc l ih =>
    intro L ts rest fuel hm hf h1 h2 h3
    obtain ⟨o, c⟩ := oc
    have hflat : ((o, c) :: l).flatMap (fun x => x.1 :: flatF x.2 3)
        = o :: (flatF c 3 ++ l.flatMap (fun x => x.1 :: flatF x.2 3)) := by
      simp
    rw [hflat] at hm
    obtain ⟨t, ts2, rfl, hty, hval, hm2⟩ := tokMatch_cons hm
    obtain ⟨u, v, rfl, hu, hv⟩ := tokMatch_append hm2
    have hulen := tokMatch_length hu
    have hvlen := tokMatch_length hv
    simp only [List.length_cons, List.length_append] at hf
    obtain ⟨g, rfl⟩ : ∃ g, fuel = g + 1 := ⟨fuel - 1, by omega⟩
    have hcompu := hcomp (o, c) (by simp) u (v ++ rest) g hu
      (by show 2 * (flatF c 3).length + 4 ≤ g; omega)
    have hih := ih (fun x hx => hops x (List.mem_cons_of_mem _ hx))
      (fun x hx => hcomp x (List.mem_cons_of_mem _ hx))
      (Ast.binary L (ftProj o).1 (astOf c)) v rest g hv (by omega)
      h1 h2 h3
    rcases hops (o, c) (by simp) with hop | hop | hop
    · have ho : o = FTok.fstar := hop
      subst ho
      have hty2 : t.type = TokenType.STAR := by simpa [ftProj] using hty
      simp only [ftProj] at hih
      simp only [List.cons_append, List.append_assoc]
      simp [parseMultiplicativeLoop, curT_cons, hty2, hcompu, hih, ftProj]
    · have ho : o = FTok.fslash := hop
      subst ho
      have hty2 : t.type = TokenType.SLASH := by simpa [ftProj] using hty
      simp only [ftProj] at hih
      simp only [List.cons_append, List.append_assoc]
      simp [parseMultiplicativeLoop, curT_cons, hty2, hcompu, hih, ftProj]
    · have ho : o = FTok.fpct := hop
      subst ho
      have hty2 : t.type = TokenType.PERCENT := by simpa [ftProj] using hty
      simp only [ftProj] at hih
      simp only [List.cons_append, List.append_assoc]
      simp [parseMultiplicativeLoop, curT_cons, hty2, hcompu, hih, ftProj]

/-- Correctness of the additive while-loop on a printed operator/operand
chain: it folds the chain left-associatively onto the accumulated node
and stops at the first non-additive token. -/
theorem addLoop_chain (l : List (FTok × Formula))
    (hops : ∀ oc ∈ l, oc.1 = FTok.fplus ∨ oc.1 = FTok.fminus)
    (hcomp : ∀ oc ∈ l, ∀ (ts rest : List Token) (fuel : Nat),
      TokMatch ts (flatF oc.2 2) →
      2 * (flatF oc.2 2).length + 5 ≤ fuel →
      (curT rest).type ≠ TokenType.STAR →
      (curT rest).type ≠ TokenType.SLASH →
      (curT rest).type ≠ TokenType.PERCENT →
      parseMultiplicative fuel (ts ++ rest) = .ok (astOf oc.2, rest)) :
    ∀ (L : Ast) (ts rest : List Token) (fuel : Nat),
      TokMatch ts (l.flatMap (fun oc => oc.1 :: flatF oc.2 2)) →
      2 * ts.length + 4 ≤ fuel →
      (curT rest).type ≠ TokenType.PLUS →
      (curT rest).type ≠ TokenType.MINUS →
      (curT rest).type ≠ TokenType.STAR →
      (curT rest).type ≠ TokenType.SLASH →
      (curT rest).type ≠ TokenType.PERCENT →
      parseAdditiveLoop fuel L (ts ++ rest) =
        .ok (l.foldl
          (fun A oc => Ast.binary A (ftProj oc.1).1 (astOf oc.2)) L,
          rest) := by
  induction l with
  | nil =>
    intro L ts rest fuel hm hf h1 h2 h3 h4 h5
    have hts := tokMatch_nil (by simpa using hm)
    subst hts
    obtain ⟨g, rfl⟩ : ∃ g, fuel = g + 1 := ⟨fuel - 1, by omega⟩
    simp [parseAdditiveLoop, h1, h2]
  | cons oc l ih =>
    intro L ts rest fuel hm hf h1 h2 h3 h4 h5
    obtain ⟨o, c⟩ := oc
    have hflat : ((o, c) :: l).flatMap (fun x => x.1 :: flatF x.2 2)
        = o :: (flatF c 2 ++ l.flatMap (fun x => x.1 :: flatF x.2 2)) := by
      simp
    rw [hflat] at hm
    obtain ⟨t, ts2, rfl, hty, hval, hm2⟩ := tokMatch_cons hm
    obtain ⟨u, v, rfl, hu, hv⟩ := tokMatch_append hm2
    have hulen := tokMatch_length hu
    have hvlen := tokMatch_length hv
    simp only [List.length_cons, List.length_append] at hf
    obtain ⟨g, rfl⟩ : ∃ g, fuel = g + 1 := ⟨fuel - 1, by omega⟩
    have hstops : (curT (v ++ rest)).type ≠ TokenType.STAR ∧
        (curT (v ++ rest)).type ≠ TokenType.SLASH ∧
        (curT (v ++ rest)).type ≠ TokenType.PERCENT := by
      cases l with
      | nil =>
        have hv0 := tokMatch_nil (by simpa using hv)
        subst hv0
        exact ⟨h3, h4, h5⟩
      | cons oc2 l2 =>
        have hflat2 : (oc2 :: l2).flatMap (fun x => x.1 :: flatF x.2 2)
            = oc2.1 :: (flatF oc2.2 2 ++
                l2.flatMap (fun x => x.1 :: flatF x.2 2)) := by simp
        rw [hflat2] at hv
        obtain ⟨t2, v2, rfl, hty2, hval2, hv2⟩ := tokMatch_cons hv
        rcases hops oc2 (by simp) with ho2 | ho2 <;>
          rw [ho2] at hty2 <;> simp [ftProj] at hty2 <;>
          simp [List.cons_append, curT_cons, hty2]
    obtain ⟨hs1, hs2, hs3⟩ := hstops
    have hcompu := hcomp (o, c) (by simp) u (v ++ rest) g hu
      (by show 2 * (flatF c 2).length + 5 ≤ g; omega)
      hs1 hs2 hs3
    have hih := ih (fun x hx => hops x (List.mem_cons_of_mem _ hx))
      (fun x hx => hcomp x (List.mem_cons_of_mem _ hx))
      (Ast.binary L (ftProj o).1 (astOf c)) v rest g hv (by omega)
      h1 h2 h3 h4 h5
    rcases hops (o, c) (by simp) with hop | hop
    · have ho : o = FTok.fplus := hop
      subst ho
      have hty2 : t.type = TokenType.PLUS := by simpa [ftProj] using hty
      simp only [ftProj] at hih
      simp only [List.cons_append, List.append_assoc]
      simp [parseAdditiveLoop, curT_cons, hty2, hcompu, hih, ftProj]
    · have ho : o = FTok.fminus := hop
      subst ho
      have hty2 : t.type = TokenType.MINUS := by simpa [ftProj] using hty
      simp only [ftProj] at hih
      simp only [List.cons_append, List.append_assoc]
      simp [parseAdditiveLoop, curT_cons, hty2, hcompu, hih, ftProj]

/-- Master correctness of the recursive-descent parser on printed
formulas, by strong induction on the printed length: the unary,
multiplicative and additive entry points each consume exactly the
printing of a formula at their level and build its AST, leaving the
remaining tokens untouched. -/
theorem parse_flat_master : ∀ N : Nat,
    (∀ f : Formula, (flatF f 3).length ≤ N →
      ∀ (ts rest : List Token) (fuel : Nat), TokMatch ts (flatF f 3) →
        2 * (flatF f 3).length + 4 ≤ fuel →
        parseUnary fuel (ts ++ rest) = .ok (astOf f, rest)) ∧
    (∀ f : Formula, (flatF f 2).length ≤ N →
      ∀ (ts rest : List Token) (fuel : Nat), TokMatch ts (flatF f 2) →
        2 * (flatF f 2).length + 5 ≤ fuel →
        (curT rest).type ≠ TokenType.STAR →
        (curT rest).type ≠ TokenType.SLASH →
        (curT rest).type ≠ TokenType.PERCENT →
        parseMultiplicative fuel (ts ++ rest) = .ok (astOf f, rest)) ∧
    (∀ f : Formula, (flatF f 1).length ≤ N →
      ∀ (ts rest : List Token) (fuel : Nat), TokMatch ts (flatF f 1) →
        2 * (flatF f 1).length + 6 ≤ fuel →
        (curT rest).type ≠ TokenType.PLUS →
        (curT rest).type ≠ TokenType.MINUS →
        (curT rest).type ≠ TokenType.STAR →
        (curT rest).type ≠ TokenType.SLASH →
        (curT rest).type ≠ TokenType.PERCENT →
        parseAdditive fuel (ts ++ rest) = .ok (astOf f, rest)) := by
  intro N
  induction N using Nat.strong_induction_on with
  | _ N ih =>
  have hU : ∀ f : Formula, (flatF f 3).length ≤ N →
      ∀ (ts rest : List Token) (fuel : Nat), TokMatch ts (flatF f 3) →
        2 * (flatF f 3).length + 4 ≤ fuel →
        parseUnary fuel (ts ++ rest) = .ok (astOf f, rest) := by
    intro f hlen ts rest fuel hm hfuel
    rcases Nat.lt_or_ge (precF f) 3 with hpf | hpf
    · have hpf2 : precF f ≤ 2 := by omega
      have hw := flatF_three_wrapped f hpf2
      rw [hw] at hm hlen hfuel
      obtain ⟨t0, ts2, rfl, hty0, hval0, hm2⟩ := tokMatch_cons hm
      obtain ⟨u, v, rfl, hu, hv⟩ := tokMatch_append hm2
      obtain ⟨t1, v2, rfl, hty1, hval1, hv2⟩ := tokMatch_cons hv
      have hv0 := tokMatch_nil hv2
      subst hv0
      have hulen := tokMatch_length hu
      simp only [List.length_cons, List.length_append,
        List.length_nil] at hlen hfuel
      have hty0n : t0.type = TokenType.LPAREN := by simpa [ftProj] using hty0
      have hty1n : t1.type = TokenType.RPAREN := by simpa [ftProj] using hty1
      obtain ⟨g1, rfl⟩ : ∃ g, fuel = g + 1 := ⟨fuel - 1, by omega⟩
      obtain ⟨g, rfl⟩ : ∃ g, g1 = g + 1 := ⟨g1 - 1, by omega⟩
      have hA1 := (ih (N - 1) (by omega)).2.2 f (by omega) u (t1 :: rest) g
        hu (by omega)
        (by simp [curT_cons, hty1n]) (by simp [curT_cons, hty1n])
        (by simp [curT_cons, hty1n]) (by simp [curT_cons, hty1n])
        (by simp [curT_cons, hty1n])
      simp only [List.cons_append, List.append_assoc, List.singleton_append]
      simp [parseUnary, parsePrimary, curT_cons, hty0n, hty1n, hA1]
    · cases f with
      | lit n =>
        have hm2 : TokMatch ts [FTok.fnum n] := hm
        obtain ⟨t, ts2, rfl, hty, hval, hm3⟩ := tokMatch_cons hm2
        have h0 := tokMatch_nil hm3
        subst h0
        have htyn : t.type = TokenType.NUMBER := by simpa [ftProj] using hty
        have hvaln : t.value = (n : ℚ) := by simpa [ftProj] using hval
        obtain ⟨g1, rfl⟩ : ∃ g, fuel = g + 1 :=
          ⟨fuel - 1, by simp [flatF] at hfuel; omega⟩
        obtain ⟨g, rfl⟩ : ∃ g, g1 = g + 1 :=
          ⟨g1 - 1, by simp [flatF] at hfuel; omega⟩
        simp [parseUnary, parsePrimary, curT_cons, htyn, hvaln, astOf]
      | neg a =>
        have hfl : flatF (.neg a) 3 = .fminus :: flatF a 3 := rfl
        rw [hfl] at hm hlen hfuel
        simp only [List.length_cons] at hlen hfuel
        obtain ⟨t, ts2, rfl, hty, hval, hm2⟩ := tokMatch_cons hm
        have htyn : t.type = TokenType.MINUS := by simpa [ftProj] using hty
        obtain ⟨g, rfl⟩ : ∃ g, fuel = g + 1 := ⟨fuel - 1, by omega⟩
        have hrec := (ih (N - 1) (by omega)).1 a (by omega) ts2 rest g hm2
          (by omega)
        simp [parseUnary, curT_cons, htyn, hrec, astOf]
      | add a b => simp [precF] at hpf
      | sub a b => simp [precF] at hpf
      | mul a b => simp [precF] at hpf
      | div a b => simp [precF] at hpf
      | mod a b => simp [precF] at hpf
  have hM : ∀ f : Formula, (flatF f 2).length ≤ N →
      ∀ (ts rest : List Token) (fuel : Nat), TokMatch ts (flatF f 2) →
        2 * (flatF f 2).length + 5 ≤ fuel →
        (curT rest).type ≠ TokenType.STAR →
        (curT rest).type ≠ TokenType.SLASH →
        (curT rest).type ≠ TokenType.PERCENT →
        parseMultiplicative fuel (ts ++ rest) = .ok (astOf f, rest) := by
    intro f hlen ts rest fuel hm hfuel h1 h2 h3
    have hflat := mulSpine_flat f
    rw [flatF_two_three _ (mulSpine_prec f)] at hflat
    rw [hflat] at hm
    obtain ⟨u, v, rfl, hu, hv⟩ := tokMatch_append hm
    have hulen := tokMatch_length hu
    have hvlen := tokMatch_length hv
    have hlen2 : (flatF f 2).length = (flatF (mulSpine f).1 3).length +
        ((mulSpine f).2.flatMap (fun oc => oc.1 :: flatF oc.2 3)).length := by
      rw [hflat]; simp
    obtain ⟨g, rfl⟩ : ∃ g, fuel = g + 1 := ⟨fuel - 1, by omega⟩
    have hhd := hU (mulSpine f).1 (by omega) u (v ++ rest) g hu (by omega)
    have hloop := mulLoop_chain (mulSpine f).2 (mulSpine_ops f)
      (fun oc hoc ts2 rest2 fuel2 hm2 hf2 =>
        hU oc.2 (by
          have hle := length_le_flatMap (fun x => x.1 :: flatF x.2 3)
            (mulSpine f).2 oc hoc
          simp only [List.length_cons] at hle
          omega) ts2 rest2 fuel2 hm2 hf2)
    have hloop2 := hloop (astOf (mulSpine f).1) v rest g hv (by omega)
      h1 h2 h3
    simp only [List.append_assoc]
    simp only [parseMultiplicative]
    rw [hhd, exceptOkBind]
    show parseMultiplicativeLoop g (astOf (mulSpine f).1) (v ++ rest) =
      Except.ok (astOf f, rest)
    rw [hloop2]
    exact congrArg (fun a => Except.ok (a, rest)) (mulSpine_ast f).symm
  have hA : ∀ f : Formula, (flatF f 1).length ≤ N →
      ∀ (ts rest : List Token) (fuel : Nat), TokMatch ts (flatF f 1) →
        2 * (flatF f 1).length + 6 ≤ fuel →
        (curT rest).type ≠ TokenType.PLUS →
        (curT rest).type ≠ TokenType.MINUS →
        (curT rest).type ≠ TokenType.STAR →
        (curT rest).type ≠ TokenType.SLASH →
        (curT rest).type ≠ TokenType.PERCENT →
        parseAdditive fuel (ts ++ rest) = .ok (astOf f, rest) := by
    intro f hlen ts rest fuel hm hfuel h1 h2 h3 h4 h5
    have hflat := addSpine_flat f
    rw [hflat] at hm
    obtain ⟨u, v, rfl, hu, hv⟩ := tokMatch_append hm
    have hulen := tokMatch_length hu
    have hvlen := tokMatch_length hv
    have hlen2 : (flatF f 1).length = (flatF (addSpine f).1 2).length +
        ((addSpine f).2.flatMap (fun oc => oc.1 :: flatF oc.2 2)).length := by
      rw [hflat]; simp
    obtain ⟨g, rfl⟩ : ∃ g, fuel = g + 1 := ⟨fuel - 1, by omega⟩
    have hstops : (curT (v ++ rest)).type ≠ TokenType.STAR ∧
        (curT (v ++ rest)).type ≠ TokenType.SLASH ∧
        (curT (v ++ rest)).type ≠ TokenType.PERCENT := by
      cases hsp : (addSpine f).2 with
      | nil =>
        rw [hsp] at hv
        have hv0 := tokMatch_nil (by simpa using hv)
        subst hv0
        exact ⟨h3, h4, h5⟩
      | cons oc2 l2 =>
        rw [hsp] at hv
        have hflat2 : (oc2 :: l2).flatMap (fun x => x.1 :: flatF x.2 2)
            = oc2.1 :: (flatF oc2.2 2 ++
                l2.flatMap (fun x => x.1 :: flatF x.2 2)) := by simp
        rw [hflat2] at hv
        obtain ⟨t2, v2, rfl, hty2, hval2, hv2⟩ := tokMatch_cons hv
        have hmem : oc2 ∈ (addSpine f).2 := by rw [hsp]; simp
        rcases addSpine_ops f oc2 hmem with ho2 | ho2 <;>
          rw [ho2] at hty2 <;> simp [ftProj] at hty2 <;>
          simp [List.cons_append, curT_cons, hty2]
    obtain ⟨hs1, hs2, hs3⟩ := hstops
    have hhd := hM (addSpine f).1 (by omega) u (v ++ rest) g hu (by omega)
      hs1 hs2 hs3
    have hloop := addLoop_chain (addSpine f).2 (addSpine_ops f)
      (fun oc hoc ts2 rest2 fuel2 hm2 hf2 hx1 hx2 hx3 =>
        hM oc.2 (by
          have hle := length_le_flatMap (fun x => x.1 :: flatF x.2 2)
            (addSpine f).2 oc hoc
          simp only [List.length_cons] at hle
          omega) ts2 rest2 fuel2 hm2 hf2 hx1 hx2 hx3)
    have hloop2 := hloop (astOf (addSpine f).1) v rest g hv (by omega)
      h1 h2 h3 h4 h5
    simp only [List.append_assoc]
    simp only [parseAdditive]
    rw [hhd, exceptOkBind]
    show parseAdditiveLoop g (astOf (addSpine f).1) (v ++ rest) =
      Except.ok (astOf f, rest)
    rw [hloop2]
    exact congrArg (fun a => Except.ok (a, rest)) (addSpine_ast f).symm
  exact ⟨hU, hM, hA⟩

/-- Lex-then-parse on the minimal-parenthesis printing of any formula
yields exactly the grammar's AST. -/
theorem parseExpression_render (f : Formula) :
    parseExpression (render f) = .ok (astOf f) := by
  have htoks := tokenizeFrom_ftoks (flatF f 1)
    ((ftChars (flatF f 1)).length + 1) 0 (by omega)
  obtain ⟨u, v, hsplit, hu, hv⟩ := map_proj_split _ _ _ htoks
  obtain ⟨te, v2, rfl⟩ : ∃ te v2, v = te :: v2 := by
    cases v with
    | nil => simp at hv
    | cons te v2 => exact ⟨te, v2, rfl⟩
  have hv2 : v2 = [] := by
    cases v2 with
    | nil => rfl
    | cons x xs => simp at hv
  subst hv2
  have hpe : projT te = (TokenType.EOF, (0 : ℚ)) := by simpa using hv
  have hte : te.type = TokenType.EOF := congrArg Prod.fst hpe
  have hmain := (parse_flat_master (flatF f 1).length).2.2 f le_rfl u [te]
    (4 * (u ++ [te]).length + 8) hu
    (by
      have hul := tokMatch_length hu
      simp only [List.length_append, List.length_cons, List.length_nil]
      omega)
    (by simp [curT_cons, hte]) (by simp [curT_cons, hte])
    (by simp [curT_cons, hte]) (by simp [curT_cons, hte])
    (by simp [curT_cons, hte])
  show parseExpressionT (tokenize (render f)) = .ok (astOf f)
  rw [show tokenize (render f) = u ++ [te] from hsplit]
  simp only [parseExpressionT]
  rw [hmain, exceptOkBind]
  simp [curT_cons, hte]

/-- Binding leaves a name-free AST unchanged, for any binding context. -/
theorem bindAst_astOf (look : List String → NameType → Except String Nat) :
    ∀ f : Formula, bindAst look (astOf f) = .ok (astOf f) := by
  intro f
  induction f with
  | lit n => rfl
  | neg a ih => simp [astOf, bindAst, ih]
  | add a b iha ihb => simp [astOf, bindAst, iha, ihb]
  | sub a b iha ihb => simp [astOf, bindAst, iha, ihb]
  | mul a b iha ihb => simp [astOf, bindAst, iha, ihb]
  | div a b iha ihb => simp [astOf, bindAst, iha, ihb]
  | mod a b iha ihb => simp [astOf, bindAst, iha, ihb]

/-- A name-free AST has no dependencies, under any link oracle. -/
theorem astDeps_astOf (link : Nat → Except String Unit) :
    ∀ f : Formula, astDeps link (astOf f) = .ok [] := by
  intro f
  induction f with
  | lit n => rfl
  | neg a ih => simpa [astOf, astDeps] using ih
  | add a b iha ihb => simp [astOf, astDeps, iha, ihb]
  | sub a b iha ihb => simp [astOf, astDeps, iha, ihb]
  | mul a b iha ihb => simp [astOf, astDeps, iha, ihb]
  | div a b iha ihb => simp [astOf, astDeps, iha, ihb]
  | mod a b iha ihb => simp [astOf, astDeps, iha, ihb]

/-- Resolution leaves a name-free AST unchanged, under any resolvedness
oracle. -/
theorem resolveAst_astOf (isRes : Nat → Bool) :
    ∀ f : Formula, resolveAst isRes (astOf f) = .ok (astOf f) := by
  intro f
  induction f with
  | lit n => rfl
  | neg a ih => simp [astOf, resolveAst, ih]
  | add a b iha ihb => simp [astOf, resolveAst, iha, ihb]
  | sub a b iha ihb => simp [astOf, resolveAst, iha, ihb]
  | mul a b iha ihb => simp [astOf, resolveAst, iha, ihb]
  | div a b iha ihb => simp [astOf, resolveAst, iha, ihb]
  | mod a b iha ihb => simp [astOf, resolveAst, iha, ihb]

/-- Evaluating the grammar's AST of a formula gives the formula's value
under standard precedence, for any reference evaluator. -/
theorem evalAst_astOf (refEval : Nat → Except String ℚ) :
    ∀ f : Formula, evalAst refEval (astOf f) = .ok (specVal f) := by
  intro f
  induction f with
  | lit n => rfl
  | neg a ih => simp [astOf, evalAst, ih, specVal]
  | add a b iha ihb => simp [astOf, evalAst, iha, ihb, specVal]
  | sub a b iha ihb => simp [astOf, evalAst, iha, ihb, specVal]
  | mul a b iha ihb => simp [astOf, evalAst, iha, ihb, specVal]
  | div a b iha ihb => simp [astOf, evalAst, iha, ihb, specVal]
  | mod a b iha ihb => simp [astOf, evalAst, iha, ihb, specVal]

/-- The full standalone pipeline on a printed formula: parse, bind on the
empty context, resolve, evaluate — producing the formula's value. -/
theorem evalString_render (f : Formula) :
    evalString (render f) = .ok (specVal f) := by
  simp [evalString, parseExpression_render, mkUnbound, bindExpr,
    bindAst_astOf, resolveExpr, hasUnresolvedDepsE, astDeps_astOf,
    resolveAst_astOf, evalAst_astOf]

/-- C3: round-trip arithmetic — for every expression built purely from
decimal literals, the operators `+ - * / %`, unary minus and parentheses
(every such expression is the rendering of a `Formula`), parsing then
binding, resolving and evaluating yields the value the formula has under
standard operator precedence with left-associative binary operators and
right-recursive unary minus; in particular `"1 + 2 * 3"` evaluates to 7,
`"(1 + 2) * 3"` to 9, `"10 - 4 / 2"` to 8, `"7 % 4 + 1"` to 4, `"-5"` to
-5, and `"--5"` to 5. -/
theorem parser_round_trip :
    (∀ f : Formula, evalString (render f) = .ok (specVal f)) ∧
    evalString "1 + 2 * 3".toList = .ok 7 ∧
    evalString "(1 + 2) * 3".toList = .ok 9 ∧
    evalString "10 - 4 / 2".toList = .ok 8 ∧
    evalString "7 % 4 + 1".toList = .ok 4 ∧
    evalString "-5".toList = .ok (-5) ∧
    evalString "--5".toList = .ok 5 := by
  refine ⟨evalString_render, ?_, ?_, ?_, ?_, ?_, ?_⟩ <;> decide

end ClaimProofs

end Rippledoc
